import Mathlib

/-!
# Chat storage and markdown rendering of the Chrome AI chat popup

A shallow embedding of `src/popup.js`: the `ChatStorage` class (a bounded
conversation store kept as one JSON blob in `localStorage`) and the parts of
`ChromeAIChat` that render markdown and track the current conversation.

Modelling conventions
* A JavaScript string is a `List Char`, one element per UTF-16 code unit, so
  `List.length` is the `length` property and `List.take` is `substring(0, n)`.
* A plain JavaScript object used as a dictionary is the list of its own
  entries in enumeration order.  Conversation ids are the strings minted by
  `generateConversationId` (`conv_<time>_<random>`), so an id is never an
  array index (which would be enumerated first) nor a member name of
  `Object.prototype`; writing a new key appends it.
* `Date.now()` readings are natural numbers passed in by the caller, one
  argument per call site.
* `JSON.stringify` followed by `JSON.parse` is the identity on the records
  the store holds, so the blob under the storage key is modelled by the
  object it parses to.
-/

/-- A JavaScript string, as the list of its UTF-16 code units. -/
abbrev JSString := List Char

/-- The `role` field of a message. -/
inductive Role where
  | user
  | assistant
  | system
  deriving DecidableEq, Repr

/-- One tracked message `{role, content, timestamp}`. -/
structure Message where
  role : Role
  content : JSString
  timestamp : Nat
  deriving DecidableEq, Repr

/-- One stored conversation record
`{id, title, messages, timestamp, lastUpdated}`. -/
structure Conversation where
  id : JSString
  title : JSString
  messages : List Message
  timestamp : Nat
  lastUpdated : Nat
  deriving DecidableEq, Repr

/-- The `conversations` object: its own entries `(key, record)` in
enumeration order. -/
abbrev Store := List (JSString × Conversation)

/-- What `localStorage` holds under `storageKey`: nothing, something that
cannot be read back (`getItem` or `JSON.parse` throws), or the serialised
`conversations` object. -/
inductive Blob where
  | absent
  | unreadable
  | stored (s : Store)
  deriving DecidableEq, Repr

/-- One entry of `getConversationList`. -/
structure Summary where
  id : JSString
  title : JSString
  timestamp : Nat
  lastUpdated : Nat
  messageCount : Nat
  deriving DecidableEq, Repr

namespace JSObject

/-- Property read `obj[key]`: `none` stands for `undefined`. -/
def get (obj : Store) (key : JSString) : Option Conversation :=
  match obj with
  | [] => none
  | (k, v) :: rest => if k = key then some v else get rest key

/-- Property write `obj[key] = v`: an existing key keeps its place, a new key
is appended. -/
def set (obj : Store) (key : JSString) (v : Conversation) : Store :=
  match obj with
  | [] => [(key, v)]
  | (k, w) :: rest => if k = key then (k, v) :: rest else (k, w) :: set rest key v

/-- Property removal `delete obj[key]`. -/
def delete (obj : Store) (key : JSString) : Store :=
  obj.filter (fun e => e.1 ≠ key)

/-- The array `Object.keys(obj)`. -/
def keys (obj : Store) : List JSString := obj.map Prod.fst

/-- The array `Object.values(obj)`. -/
def values (obj : Store) : List Conversation := obj.map Prod.snd

end JSObject

/-- `Array.prototype.sort((a, b) => b.lastUpdated - a.lastUpdated)`: the
stable sort by `lastUpdated`, newest first. -/
def sortByLastUpdated (l : List Conversation) : List Conversation :=
  l.insertionSort (fun a b => b.lastUpdated ≤ a.lastUpdated)

namespace ChatStorage

/-- The constructor's `this.maxStoredConversations = 20`. -/
def maxStoredConversations : Nat := 20

/-- `getAllConversations`: the parsed blob, or `{}` when nothing is stored or
reading throws. -/
def getAllConversations : Blob → Store
  | .stored s => s
  | _ => []

/-- The title `saveConversation` derives when `!title` holds: the content of
the first user message cut to 50 code units, with `...` appended when it was
longer, or `New Conversation` when there is no user message. -/
def inferTitle (messages : List Message) : JSString :=
  match messages.find? (fun msg => msg.role = Role.user) with
  | some firstUserMsg =>
      firstUserMsg.content.take 50 ++
        (if firstUserMsg.content.length > 50 then "...".toList else [])
  | none => "New Conversation".toList

/-- The test `!title` on the parameter `title = null`: true for `null` and
for the empty string. -/
def titleMissing : Option JSString → Bool
  | none => true
  | some t => t.isEmpty

/-- The value of `title` after the `if (!title)` block. -/
def resolveTitle (title : Option JSString) (messages : List Message) : JSString :=
  if titleMissing title then inferTitle messages else title.getD []

/-- Every entry is filed under the `id` of its record, the way
`saveConversation` writes entries. -/
def KeysAreIds (s : Store) : Prop := ∀ e ∈ s, e.2.id = e.1

instance (s : Store) : Decidable (KeysAreIds s) := by
  unfold KeysAreIds
  infer_instance

/-- `cleanupOldConversations`: when more than `maxStoredConversations`
records are present, keep the first twenty of the newest-first sort, index
them by `conv.id`, and delete every key of `conversations` that is not such
an id. -/
def cleanupOldConversations (conversations : Store) : Store :=
  let conversationArray := JSObject.values conversations
  if conversationArray.length > maxStoredConversations then
    let sorted := sortByLastUpdated conversationArray
    let toKeep := sorted.take maxStoredConversations
    conversations.filter (fun e => toKeep.any (fun conv => conv.id = e.1))
  else conversations

/-- The object literal `saveConversation` assigns to
`conversations[conversationId]`, after the title has been resolved. -/
def newRecord (conversationId : JSString) (messages : List Message)
    (title : Option JSString) (now1 now2 : Nat) : Conversation :=
  { id := conversationId, title := resolveTitle title messages, messages := messages,
    timestamp := now1, lastUpdated := now2 }

/-- `saveConversation(conversationId, messages, title)`.  `now1` and `now2`
are the two `Date.now()` readings, `writeOk` tells whether
`localStorage.setItem` succeeds.  Returns the boolean result and the blob
afterwards. -/
def saveConversation (blob : Blob) (conversationId : JSString)
    (messages : List Message) (title : Option JSString)
    (now1 now2 : Nat) (writeOk : Bool) : Bool × Blob :=
  let conversations := getAllConversations blob
  let conversations := JSObject.set conversations conversationId
    (newRecord conversationId messages title now1 now2)
  let conversations := cleanupOldConversations conversations
  if writeOk then (true, Blob.stored conversations) else (false, blob)

/-- `loadConversation(conversationId)`: `conversations[conversationId] || null`.
The method only reads, so the blob is not part of the result. -/
def loadConversation (blob : Blob) (conversationId : JSString) : Option Conversation :=
  JSObject.get (getAllConversations blob) conversationId

/-- `deleteConversation(conversationId)`. -/
def deleteConversation (blob : Blob) (conversationId : JSString)
    (writeOk : Bool) : Bool × Blob :=
  let conversations := JSObject.delete (getAllConversations blob) conversationId
  if writeOk then (true, Blob.stored conversations) else (false, blob)

/-- `getConversationList()`: the records newest first, each reduced to its
summary. -/
def getConversationList (blob : Blob) : List Summary :=
  (sortByLastUpdated (JSObject.values (getAllConversations blob))).map
    (fun conv =>
      { id := conv.id, title := conv.title, timestamp := conv.timestamp,
        lastUpdated := conv.lastUpdated, messageCount := conv.messages.length })

/-- `updateConversationTitle(conversationId, newTitle)`; `now` is the
`Date.now()` reading. -/
def updateConversationTitle (blob : Blob) (conversationId : JSString)
    (newTitle : JSString) (now : Nat) (writeOk : Bool) : Bool × Blob :=
  let conversations := getAllConversations blob
  match JSObject.get conversations conversationId with
  | some conv =>
      let conversations := JSObject.set conversations conversationId
        { conv with title := newTitle, lastUpdated := now }
      if writeOk then (true, Blob.stored conversations) else (false, blob)
  | none => (false, blob)

end ChatStorage

namespace Examples

/-- A user message with the given text, sent at time 1. -/
def userMsg (text : String) : Message :=
  { role := Role.user, content := text.toList, timestamp := 1 }

/-- An assistant message with the given text, sent at time 2. -/
def assistantMsg (text : String) : Message :=
  { role := Role.assistant, content := text.toList, timestamp := 2 }

/-- A stored record under `id` with the given title and update time. -/
def record (id title : String) (lastUpdated : Nat) : Conversation :=
  { id := id.toList, title := title.toList, messages := [userMsg "hi"],
    timestamp := lastUpdated, lastUpdated := lastUpdated }

/-- A store holding `n` conversations `conv_1_a`, `conv_2_a`, ... all last
updated at time `lastUpdated`. -/
def storeOf (n lastUpdated : Nat) : Store :=
  (List.range n).map (fun i =>
    let id := "conv_".toList ++ Nat.toDigits 10 (i + 1) ++ "_a".toList
    (id, { id := id, title := "old".toList, messages := [userMsg "hi"],
           timestamp := lastUpdated, lastUpdated := lastUpdated }))

/-- A store with the single conversation `conv_7_x`, titled `Custom`,
created and last updated at time 1. -/
def oneStore : Store := [("conv_7_x".toList, record "conv_7_x" "Custom" 1)]

end Examples

namespace JSRegExp

/-- The backtick character (U+0060). -/
def backtick : Char := Char.ofNat 96

/-- The double quote character (U+0022). -/
def dquote : Char := Char.ofNat 34

/-- The apostrophe character (U+0027). -/
def apostrophe : Char := Char.ofNat 39

/-- The line feed character (U+000A). -/
def newline : Char := Char.ofNat 10

/-- The ECMAScript `LineTerminator` code units: LF, CR, U+2028, U+2029.
These are what `.` refuses and what `^` and `$` look at under the `m`
flag. -/
def isLineTerminator (c : Char) : Bool :=
  c.toNat = 10 || c.toNat = 13 || c.toNat = 8232 || c.toNat = 8233

/-- The class `\s`: ECMAScript `WhiteSpace` and `LineTerminator`. -/
def isSpace (c : Char) : Bool :=
  c.toNat = 9 || c.toNat = 10 || c.toNat = 11 || c.toNat = 12 || c.toNat = 13 ||
  c.toNat = 32 || c.toNat = 160 || c.toNat = 5760 ||
  (8192 ≤ c.toNat && c.toNat ≤ 8202) ||
  c.toNat = 8232 || c.toNat = 8233 || c.toNat = 8239 || c.toNat = 8287 ||
  c.toNat = 12288 || c.toNat = 65279

/-- The class `\d`: the ASCII digits. -/
def isDigit (c : Char) : Bool := 48 ≤ c.toNat && c.toNat ≤ 57

/-- Whether `p` is an initial segment of `s`. -/
def startsWith (p s : List Char) : Bool :=
  match p, s with
  | [], _ => true
  | _ :: _, [] => false
  | a :: p, b :: s => a = b && startsWith p s

/-- `String.prototype.replace` with a global regular expression that cannot
match the empty string.  `matchAt bol s` tries the expression at the head of
`s`, where `bol` tells whether the head is at the start of a line (the start
of the input or just after a line terminator), and returns the replacement
text together with the number of code units matched.  After a match the
scan resumes behind it: `skip` counts the matched code units still to pass
over. -/
def replaceAll (matchAt : Bool → List Char → Option (List Char × Nat)) :
    Bool → Nat → List Char → List Char
  | _, _, [] => []
  | _, skip + 1, c :: cs => replaceAll matchAt (isLineTerminator c) skip cs
  | bol, 0, c :: cs =>
      match matchAt bol (c :: cs) with
      | some (out, len) => out ++ replaceAll matchAt (isLineTerminator c) (len - 1) cs
      | none => c :: replaceAll matchAt (isLineTerminator c) 0 cs

/-- Global replacement of one character by a fixed text, as in
`str.replace(/&/g, '&amp;')`. -/
def replaceChar (c : Char) (by_ : List Char) (s : List Char) : List Char :=
  s.flatMap (fun x => if x = c then by_ else [x])

/-- The expressions `x([^x]+)x` and `xx([^x]+)xx` (here `n` copies of the
delimiter `x` on either side) replaced by `open_ $1 close`: the delimiter,
then the longest run of other characters, which must be non-empty and
followed by the delimiter again. -/
def delimMatch (x : Char) (n : Nat) (open_ close : List Char) (s : List Char) :
    Option (List Char × Nat) :=
  if startsWith (List.replicate n x) s then
    let body := (s.drop n).takeWhile (fun c => c ≠ x)
    let after := (s.drop n).drop body.length
    if !body.isEmpty && startsWith (List.replicate n x) after then
      some (open_ ++ body ++ close, n + body.length + n)
    else none
  else none

end JSRegExp

namespace ChromeAIChat

open JSRegExp

/-- `escapeHtml(str)`: five global replacements, one after the other. -/
def escapeHtml (str : JSString) : JSString :=
  replaceChar apostrophe "&#39;".toList
    (replaceChar dquote "&quot;".toList
      (replaceChar '>' "&gt;".toList
        (replaceChar '<' "&lt;".toList
          (replaceChar '&' "&amp;".toList str))))

/-- The three backticks of a code fence. -/
def fence : List Char := [backtick, backtick, backtick]

/-- The lazy group `([\s\S]*?)` followed by a fence: the text before the
first fence in `s` and the number of code units up to and including that
fence, if there is one. -/
def untilFence : List Char → Option (List Char × Nat)
  | [] => none
  | c :: cs =>
      if startsWith fence (c :: cs) then some ([], 3)
      else match untilFence cs with
        | some (body, len) => some (c :: body, len + 1)
        | none => none

/-- Decimal digits of a natural number, most significant first, as
template interpolation prints `codeBlocks.length - 1`. -/
def natToString (n : Nat) : List Char := (Nat.toDigits 10 n)

/-- The placeholder `@@CODEBLOCK<n>@@`. -/
def placeholder (n : Nat) : List Char :=
  "@@CODEBLOCK".toList ++ natToString n ++ "@@".toList

/-- The replacement pass for fenced code blocks: returns the text with every
fenced block replaced by its numbered placeholder.  `count` is
`codeBlocks.length` so far, `skip` the matched code units still to pass. -/
def extractText : Nat → Nat → List Char → List Char
  | _, _, [] => []
  | count, skip + 1, _ :: cs => extractText count skip cs
  | count, 0, c :: cs =>
      if startsWith fence (c :: cs) then
        match untilFence (List.drop 2 cs) with
        | some (_, len) => placeholder count ++ extractText (count + 1) (len + 2) cs
        | none => c :: extractText count 0 cs
      else c :: extractText count 0 cs

/-- The array `codeBlocks` filled by the same pass: the captured bodies in
order of appearance. -/
def extractBlocks : Nat → List Char → List (List Char)
  | _, [] => []
  | skip + 1, _ :: cs => extractBlocks skip cs
  | 0, c :: cs =>
      if startsWith fence (c :: cs) then
        match untilFence (List.drop 2 cs) with
        | some (body, len) => body :: extractBlocks (len + 2) cs
        | none => extractBlocks 0 cs
      else extractBlocks 0 cs

/-- The inline code expression, a backtick-delimited non-empty run. -/
def inlineCodeMatch (_bol : Bool) (s : List Char) : Option (List Char × Nat) :=
  delimMatch backtick 1 "<code>".toList "</code>".toList s

/-- The anchor emitted for a link. -/
def anchor (text url : List Char) : List Char :=
  "<a href=\"".toList ++ escapeHtml url ++
    "\" target=\"_blank\" rel=\"noopener noreferrer\">".toList ++ text ++ "</a>".toList

/-- The link expression `\[([^\]]+)\]\(([^)]+)\)`. -/
def linkMatch (_bol : Bool) (s : List Char) : Option (List Char × Nat) :=
  match s with
  | '[' :: r =>
      let text := r.takeWhile (fun c => c ≠ ']')
      match r.drop text.length with
      | ']' :: '(' :: r2 =>
          let url := r2.takeWhile (fun c => c ≠ ')')
          match r2.drop url.length with
          | ')' :: _ =>
              if !text.isEmpty && !url.isEmpty then
                some (anchor text url, text.length + url.length + 4)
              else none
          | _ => none
      | _ => none
  | _ => none

/-- The heading expression `^#...#\s*(.*)$` with `n` hash signs under the
flags `gm`, replaced by `<hn>$1</hn>`. -/
def headingMatch (n : Nat) (bol : Bool) (s : List Char) : Option (List Char × Nat) :=
  if bol && startsWith (List.replicate n '#') s then
    let ws := (s.drop n).takeWhile isSpace
    let r := (s.drop n).drop ws.length
    let cap := r.takeWhile (fun c => !isLineTerminator c)
    some ("<h".toList ++ natToString n ++ ">".toList ++ cap ++
          "</h".toList ++ natToString n ++ ">".toList,
          n + ws.length + cap.length)
  else none

/-- `s.split('\n')`. -/
def splitLines : List Char → List (List Char)
  | [] => [[]]
  | c :: cs =>
      if c = newline then [] :: splitLines cs
      else match splitLines cs with
        | [] => [[c]]
        | l :: ls => (c :: l) :: ls

/-- The test `/^\s*[-*]\s+/` on one line together with
`line.replace(/^\s*[-*]\s+/, '')`: the line without its bullet when it has
one. -/
def stripBullet (line : List Char) : Option (List Char) :=
  match line.dropWhile isSpace with
  | c :: r =>
      if c = '-' ∨ c = '*' then
        match r with
        | d :: _ => if isSpace d then some (r.dropWhile isSpace) else none
        | [] => none
      else none
  | [] => none

/-- The loop over `lines` that fills `out`, with the trailing
`if (inList) out.push('</ul>')`. -/
def listLoop : Bool → List (List Char) → List (List Char)
  | inList, [] => if inList then ["</ul>".toList] else []
  | inList, line :: rest =>
      match stripBullet line with
      | some item =>
          (if inList then [] else ["<ul>".toList]) ++
            (("<li>".toList ++ item ++ "</li>".toList) :: listLoop true rest)
      | none =>
          (if inList then ["</ul>".toList] else []) ++ (line :: listLoop false rest)

/-- `out.join('\n')`. -/
def joinLines : List (List Char) → List Char
  | [] => []
  | [l] => l
  | l :: ls => l ++ newline :: joinLines ls

/-- `Number(idx)` for a run of decimal digits. -/
def parseNat (digits : List Char) : Nat :=
  digits.foldl (fun acc d => 10 * acc + (d.toNat - 48)) 0

/-- The restore expression `@@CODEBLOCK(\d+)@@`, replaced by the stored
block (or the empty string) inside `<pre><code>`. -/
def restoreMatch (codeBlocks : List (List Char)) (_bol : Bool) (s : List Char) :
    Option (List Char × Nat) :=
  if startsWith "@@CODEBLOCK".toList s then
    let idx := (s.drop 11).takeWhile isDigit
    let after := (s.drop 11).drop idx.length
    if !idx.isEmpty && startsWith "@@".toList after then
      some ("<pre><code>".toList ++ codeBlocks.getD (parseNat idx) [] ++
              "</code></pre>".toList,
            11 + idx.length + 2)
    else none
  else none

/-- The six heading passes, `######` first. -/
def headings (s : List Char) : List Char :=
  let s := replaceAll (headingMatch 6) true 0 s
  let s := replaceAll (headingMatch 5) true 0 s
  let s := replaceAll (headingMatch 4) true 0 s
  let s := replaceAll (headingMatch 3) true 0 s
  let s := replaceAll (headingMatch 2) true 0 s
  replaceAll (headingMatch 1) true 0 s

/-- The four emphasis passes: bold with asterisks, bold with underscores,
italic with asterisks, italic with underscores. -/
def emphasis (s : List Char) : List Char :=
  let s := replaceAll (fun _ => delimMatch '*' 2 "<strong>".toList "</strong>".toList) true 0 s
  let s := replaceAll (fun _ => delimMatch '_' 2 "<strong>".toList "</strong>".toList) true 0 s
  let s := replaceAll (fun _ => delimMatch '*' 1 "<em>".toList "</em>".toList) true 0 s
  replaceAll (fun _ => delimMatch '_' 1 "<em>".toList "</em>".toList) true 0 s

/-- The list pass: split into lines, group bullet lines, join again. -/
def lists (s : List Char) : List Char :=
  joinLines (listLoop false (splitLines s))

/-- `renderMarkdown(md)`. -/
def renderMarkdown (md : JSString) : JSString :=
  if md.isEmpty then []
  else
    let s := escapeHtml md
    let codeBlocks := extractBlocks 0 s
    let s := extractText 0 0 s
    let s := replaceAll inlineCodeMatch true 0 s
    let s := replaceAll linkMatch true 0 s
    let s := headings s
    let s := emphasis s
    let s := lists s
    let s := replaceChar newline "<br>".toList s
    replaceAll (restoreMatch codeBlocks) true 0 s

/-- The characters that delimit markup: `<`, `>`, the double quote and
`&`. -/
def isMarkupChar (c : Char) : Bool :=
  c = '<' || c = '>' || c = dquote || c = '&'

/-- The five entities `escapeHtml` produces. -/
def entities : List (List Char) :=
  ["&amp;".toList, "&lt;".toList, "&gt;".toList, "&quot;".toList, "&#39;".toList]

/-- The fixed pieces of markup `renderMarkdown` emits.  The anchor tag is
listed by its fixed parts around the URL and around the word `_blank`. -/
def tagFragments : List (List Char) :=
  ["<code>".toList, "</code>".toList, "<pre>".toList, "</pre>".toList,
   "<a href=\"".toList, "\" target=\"".toList, "\" rel=\"noopener noreferrer\">".toList,
   "</a>".toList,
   "<h1>".toList, "<h2>".toList, "<h3>".toList, "<h4>".toList, "<h5>".toList, "<h6>".toList,
   "</h1>".toList, "</h2>".toList, "</h3>".toList, "</h4>".toList, "</h5>".toList,
   "</h6>".toList,
   "<strong>".toList, "</strong>".toList, "<em>".toList, "</em>".toList,
   "<ul>".toList, "</ul>".toList, "<li>".toList, "</li>".toList, "<br>".toList]

/-- Text in which markup characters occur only inside entities and tag
fragments: a concatenation of characters other than `<`, `>`, `"`, `&`, of
entities and of tag fragments. -/
inductive Safe : List Char → Prop where
  | nil : Safe []
  | char (c : Char) (s : List Char) : isMarkupChar c = false → Safe s → Safe (c :: s)
  | piece (t s : List Char) : t ∈ entities ++ tagFragments → Safe s → Safe (t ++ s)

/-- A character that is no markup character and occurs in no entity and no
tag fragment, so that it can only stand between pieces. -/
def isBoundary (d : Char) : Bool :=
  !isMarkupChar d && (entities ++ tagFragments).all (fun t => !t.contains d)

/-- The property of a matcher that makes `replaceAll` keep texts `Safe`:
a match starts and ends between pieces, and its replacement is `Safe` after
any `Safe` text before it. -/
def SafeMatcher (m : Bool → List Char → Option (List Char × Nat)) : Prop :=
  ∀ bol s out len, m bol s = some (out, len) →
    1 ≤ len ∧ ∀ p, Safe (p ++ s) → (bol = true → Safe p ∧ Safe s) →
      Safe (p ++ out) ∧ Safe (s.drop len)

/-- The property of a matcher that makes `replaceAll` keep a literal fence:
no match starts at a backtick, and a match that starts before a fence either
ends before it or copies it into the replacement. -/
def FenceTransparent (m : Bool → List Char → Option (List Char × Nat)) : Prop :=
  (∀ bol t, m bol (backtick :: t) = none) ∧
  ∀ bol u v out len, m bol (u ++ (fence ++ v)) = some (out, len) →
    1 ≤ len ∧ (len ≤ u.length ∨ ∃ o1 o2, out = o1 ++ (fence ++ o2))

/-- Text in which every fence is matched: characters other than the
backtick, and complete fenced blocks whose body is closed by the first fence
after it (no three backticks in a row begin inside the body). -/
inductive ClosedBlocks : List Char → Prop where
  | nil : ClosedBlocks []
  | char (c : Char) (s : List Char) : c ≠ backtick → ClosedBlocks s → ClosedBlocks (c :: s)
  | block (body s : List Char) : ¬ fence <:+: body ++ [backtick, backtick] →
      ClosedBlocks s → ClosedBlocks (fence ++ (body ++ (fence ++ s)))

/-- The entity or character that stands for one character in escaped text:
the single-pass reading of `escapeHtml`. -/
def escapeChar (c : Char) : List Char :=
  if c = '&' then "&amp;".toList
  else if c = '<' then "&lt;".toList
  else if c = '>' then "&gt;".toList
  else if c = dquote then "&quot;".toList
  else if c = apostrophe then "&#39;".toList
  else [c]

/-- What the environment answers during a run, indexed by the number of
requests made so far: the `Date.now()` readings, the strings minted by
`generateConversationId` (`'conv_' + Date.now() + '_' + random`), and
whether each `localStorage.setItem` succeeds. -/
structure World where
  clock : Nat → Nat
  freshId : Nat → JSString
  writeOk : Nat → Bool

/-- One call of `ChatStorage.saveConversation` as seen from the caller:
its three arguments. -/
structure SaveCall where
  conversationId : JSString
  messages : List Message
  title : Option JSString
  deriving DecidableEq, Repr

/-- The fields of a `ChromeAIChat` instance that the conversation logic
reads and writes, the blob behind `chatStorage`, the number of requests made
to the environment, and a record of every `saveConversation` call made. -/
structure Session where
  isInitialized : Bool
  isProcessing : Bool
  currentConversationId : Option JSString
  currentMessages : List Message
  blob : Blob
  tick : Nat
  saveLog : List SaveCall
  deriving DecidableEq, Repr

/-- The state set up by the constructor, over a given blob. -/
def Session.initial (blob : Blob) : Session :=
  { isInitialized := false, isProcessing := false, currentConversationId := none,
    currentMessages := [], blob := blob, tick := 0, saveLog := [] }

/-- The test `!this.currentConversationId`: true for `null` and for the
empty string. -/
def idMissing : Option JSString → Bool
  | none => true
  | some i => i.isEmpty

/-- The guarded assignment
`if (!this.currentConversationId) this.currentConversationId = generateConversationId()`. -/
def ensureConversationId (w : World) (st : Session) : Session :=
  if idMissing st.currentConversationId then
    { st with currentConversationId := some (w.freshId st.tick), tick := st.tick + 1 }
  else st

/-- A call `this.chatStorage.saveConversation(id, messages, title)`: three
requests to the environment (two clock readings and the write), the blob
replaced by the one the store leaves, the call recorded.  Returns the
boolean result as well. -/
def callSave (w : World) (st : Session) (title : Option JSString) : Bool × Session :=
  let conversationId := st.currentConversationId.getD []
  let r := ChatStorage.saveConversation st.blob conversationId st.currentMessages title
    (w.clock st.tick) (w.clock (st.tick + 1)) (w.writeOk (st.tick + 2))
  let call : SaveCall :=
    { conversationId := conversationId, messages := st.currentMessages, title := title }
  (r.1, { st with blob := r.2, tick := st.tick + 3, saveLog := st.saveLog ++ [call] })

/-- `saveCurrentConversation()`. -/
def saveCurrentConversation (w : World) (st : Session) : Session :=
  let st := ensureConversationId w st
  if st.currentMessages.length > 0 then (callSave w st none).2 else st

/-- `addMessage(role, content)` without its DOM work: a message that is not
a system message is pushed onto `currentMessages` with the current time, and
an assistant message that is not the first message triggers the automatic
save. -/
def addMessage (w : World) (st : Session) (role : Role) (content : JSString) : Session :=
  if role ≠ Role.system then
    let st := { st with
      currentMessages := st.currentMessages ++
        [{ role := role, content := content, timestamp := w.clock st.tick }],
      tick := st.tick + 1 }
    if role = Role.assistant ∧ st.currentMessages.length > 1 then
      saveCurrentConversation w (ensureConversationId w st)
    else st
  else st

/-- `startNewConversation()`. -/
def startNewConversation (w : World) (st : Session) : Session :=
  let st := if st.currentMessages.length > 0 then saveCurrentConversation w st else st
  { st with currentConversationId := none, currentMessages := [] }

/-- `clearChat()`; the closing notice is a system message. -/
def clearChat (w : World) (st : Session) : Session :=
  let st := if st.currentMessages.length > 0 then saveCurrentConversation w st else st
  let st := { st with currentMessages := [] }
  addMessage w st Role.system
    "Chat cleared. Previous context has been preserved. Conversation saved to history.".toList

/-- `saveCurrentConversationManually()`; `answer` is what `prompt` returns,
`none` when the user cancels. -/
def saveCurrentConversationManually (w : World) (st : Session)
    (answer : Option JSString) : Session :=
  if st.currentMessages.length = 0 then
    addMessage w st Role.system "No messages to save. Start a conversation first!".toList
  else
    match answer with
    | some customTitle =>
        let st := ensureConversationId w st
        let r := callSave w st (some customTitle)
        if r.1 then
          addMessage w r.2 Role.system
            ("Conversation saved as: \"".toList ++ customTitle ++ "\"".toList)
        else
          addMessage w r.2 Role.system "Error saving conversation. Please try again.".toList
    | none => st

/-- `String.prototype.trim`. -/
def trim (s : JSString) : JSString :=
  ((s.dropWhile isSpace).reverse.dropWhile isSpace).reverse

/-- The body of the `for await` loop of `sendMessage` for one chunk, on the
pair `(response, messageElement.innerHTML)`. -/
def streamStep (acc : JSString × JSString) (chunk : JSString) : JSString × JSString :=
  let response := acc.1 ++ chunk
  (response, renderMarkdown response)

/-- The streaming part of `sendMessage`: the assistant element is created
by `addMessage('assistant', '')`, which renders the empty text, and every
chunk is appended to `response` and the whole of it rendered again. -/
def streamLoop (chunks : List JSString) : JSString × JSString :=
  chunks.foldl streamStep ([], renderMarkdown [])

/-- `sendMessage()` when the stream ends without an error: `input` is the
value of the input box and `chunks` what `promptStreaming` yields.  Returns
the session afterwards and the markup left in the assistant element (`none`
when the guard returns early). -/
def sendMessage (w : World) (st : Session) (input : JSString)
    (chunks : List JSString) : Session × Option JSString :=
  if !st.isInitialized || st.isProcessing || (trim input).isEmpty then (st, none)
  else
    let message := trim input
    let st := addMessage w st Role.user message
    let st := { st with isProcessing := true }
    let st := addMessage w st Role.assistant []
    let shown := (streamLoop chunks).2
    ({ st with isProcessing := false }, some shown)

/-- The operations of a session that touch the tracked conversation. -/
inductive Op where
  | addMessage (role : Role) (content : JSString)
  | clearChat
  | startNewConversation
  | saveCurrentConversation
  | saveCurrentConversationManually (answer : Option JSString)
  deriving DecidableEq, Repr

/-- The `(role, content)` pairs that a sequence of operations pushes onto
`currentMessages`: one per `addMessage` whose role is not system, in
order. -/
def addedMessages : List Op → List (Role × JSString)
  | [] => []
  | .addMessage role content :: ops =>
      if role ≠ Role.system then (role, content) :: addedMessages ops
      else addedMessages ops
  | _ :: ops => addedMessages ops

/-- One operation applied to a session. -/
def step (w : World) (st : Session) : Op → Session
  | .addMessage role content => addMessage w st role content
  | .clearChat => clearChat w st
  | .startNewConversation => startNewConversation w st
  | .saveCurrentConversation => saveCurrentConversation w st
  | .saveCurrentConversationManually answer => saveCurrentConversationManually w st answer

/-- A sequence of operations applied in order. -/
def run (w : World) (st : Session) (ops : List Op) : Session :=
  ops.foldl (step w) st

/-- A recorded call is good relative to the operations run so far: its
message list is non-empty, free of system messages, and a final segment of
what some initial part of the operations added. -/
def GoodCall (ops : List Op) (call : SaveCall) : Prop :=
  call.messages ≠ [] ∧ (∀ m ∈ call.messages, m.role ≠ Role.system) ∧
  ∃ done, done <+: ops ∧
    call.messages.map (fun m => (m.role, m.content)) <:+ addedMessages done

/-- The invariant of a session after `ops`. -/
def SessionInv (ops : List Op) (st : Session) : Prop :=
  (∀ m ∈ st.currentMessages, m.role ≠ Role.system) ∧
  st.currentMessages.map (fun m => (m.role, m.content)) <:+ addedMessages ops ∧
  ∀ call ∈ st.saveLog, GoodCall ops call

/-- An operation that keeps `currentMessages` and records at most calls
carrying the current, non-empty message list. -/
def Quiet (st st' : Session) : Prop :=
  st'.currentMessages = st.currentMessages ∧
  ∀ call ∈ st'.saveLog, call ∈ st.saveLog ∨
    (call.messages = st.currentMessages ∧ st.currentMessages ≠ [])

/-- An environment whose clock reads the number of requests made so far,
whose writes all succeed and which always mints the id `conv_1_x`. -/
def calmWorld : World :=
  { clock := fun n => n, freshId := fun _ => "conv_1_x".toList, writeOk := fun _ => true }

/-- Two operations: the user says `hi`, the assistant answers `hello`. -/
def helloOps : List Op :=
  [Op.addMessage Role.user "hi".toList, Op.addMessage Role.assistant "hello".toList]

/-- The call that `helloOps` makes in `calmWorld`: both messages, saved
without a title under the minted id. -/
def helloCall : SaveCall :=
  { conversationId := "conv_1_x".toList,
    messages := [{ role := Role.user, content := "hi".toList, timestamp := 0 },
                 { role := Role.assistant, content := "hello".toList, timestamp := 1 }],
    title := none }

/-- An initialised, idle session with nothing tracked, over the given
blob. -/
def readySession (blob : Blob) : Session :=
  { Session.initial blob with isInitialized := true }

end ChromeAIChat

namespace JSObject

theorem get_set_self (obj : Store) (k : JSString) (v : Conversation) :
    get (set obj k v) k = some v := by
  induction obj with
  | nil => simp [set, get]
  | cons e rest ih =>
    obtain ⟨k', w⟩ := e
    by_cases h : k' = k
    · simp [set, get, h]
    · simp [set, get, h, ih]

theorem get_set_other (obj : Store) (k k' : JSString) (v : Conversation) (h : k' ≠ k) :
    get (set obj k v) k' = get obj k' := by
  induction obj with
  | nil => simp [set, get, Ne.symm h]
  | cons e rest ih =>
    obtain ⟨k0, w⟩ := e
    by_cases h0 : k0 = k
    · subst h0
      simp [set, get, Ne.symm h]
    · by_cases h1 : k0 = k'
      · subst h1
        simp [set, get, h0]
      · simp [set, get, h0, h1, ih]

theorem get_filter_key (p : JSString → Bool) (obj : Store) (k : JSString) :
    get (obj.filter (fun e => p e.1)) k = if p k then get obj k else none := by
  induction obj with
  | nil => simp [get]
  | cons e rest ih =>
    obtain ⟨k0, w⟩ := e
    by_cases h0 : k0 = k
    · subst h0
      by_cases hp : p k0 = true
      · simp [List.filter_cons, hp, get]
      · simp [List.filter_cons, hp, get, ih]
    · by_cases hp : p k0 = true
      · simp [List.filter_cons, hp, get, h0, ih]
      · simp [List.filter_cons, hp, get, h0, ih]

theorem get_eq_none_iff (obj : Store) (k : JSString) :
    get obj k = none ↔ k ∉ keys obj := by
  induction obj with
  | nil => simp [get, keys]
  | cons e rest ih =>
    obtain ⟨k0, w⟩ := e
    by_cases h0 : k0 = k
    · subst h0
      simp only [get, keys, List.map_cons, List.mem_cons, if_true, true_or, not_true_eq_false,
        iff_false]
      exact fun h => Option.noConfusion h
    · simp only [get, h0, if_false, ih, keys, List.map_cons, List.mem_cons]
      constructor
      · intro h hc
        rcases hc with hc | hc
        · exact h0 hc.symm
        · exact h hc
      · intro h hc
        exact h (Or.inr hc)

theorem get_mem (obj : Store) (k : JSString) (v : Conversation) (h : get obj k = some v) :
    (k, v) ∈ obj := by
  induction obj with
  | nil => simp [get] at h
  | cons e rest ih =>
    obtain ⟨k0, w⟩ := e
    by_cases h0 : k0 = k
    · simp [get, h0] at h
      simp [h0, h]
    · simp [get, h0] at h
      exact List.mem_cons_of_mem _ (ih h)

theorem mem_get_of_nodup (obj : Store) (k : JSString) (v : Conversation)
    (hn : (keys obj).Nodup) (h : (k, v) ∈ obj) : get obj k = some v := by
  induction obj with
  | nil => simp at h
  | cons e rest ih =>
    obtain ⟨k0, w⟩ := e
    simp only [keys, List.map_cons, List.nodup_cons] at hn
    rcases List.mem_cons.1 h with h | h
    · cases h
      simp [get]
    · have : k0 ≠ k := by
        intro hc
        subst hc
        exact hn.1 (List.mem_map_of_mem Prod.fst h)
      simp [get, this]
      exact ih hn.2 h

theorem keys_set (obj : Store) (k : JSString) (v : Conversation) :
    keys (set obj k v) = if k ∈ keys obj then keys obj else keys obj ++ [k] := by
  induction obj with
  | nil => simp [set, keys]
  | cons e rest ih =>
    obtain ⟨k0, w⟩ := e
    by_cases h0 : k0 = k
    · subst h0
      simp only [set, keys, if_true, List.map_cons, List.mem_cons, true_or]
    · have h0' : ¬ k = k0 := fun h => h0 h.symm
      simp only [set, h0, if_false, keys, List.map_cons, List.mem_cons, h0', false_or] at ih ⊢
      rw [ih]
      split <;> simp

theorem nodup_keys_set (obj : Store) (k : JSString) (v : Conversation)
    (hn : (keys obj).Nodup) : (keys (set obj k v)).Nodup := by
  rw [keys_set]
  split
  · exact hn
  · rename_i h
    exact List.Nodup.append hn (List.nodup_singleton k) (by simpa using h)

end JSObject

open ChatStorage

theorem sortByLastUpdated_perm (l : List Conversation) : (sortByLastUpdated l).Perm l :=
  List.perm_insertionSort _ l

theorem sortByLastUpdated_sorted (l : List Conversation) :
    (sortByLastUpdated l).Pairwise (fun a b => b.lastUpdated ≤ a.lastUpdated) := by
  have : IsTotal Conversation (fun a b => b.lastUpdated ≤ a.lastUpdated) :=
    ⟨fun a b => Nat.le_total b.lastUpdated a.lastUpdated⟩
  have : IsTrans Conversation (fun a b => b.lastUpdated ≤ a.lastUpdated) :=
    ⟨fun a b c hab hbc => Nat.le_trans hbc hab⟩
  exact List.sorted_insertionSort _ l

namespace ChatStorage

theorem cleanup_small (s : Store) (h : s.length ≤ maxStoredConversations) :
    cleanupOldConversations s = s := by
  unfold cleanupOldConversations
  simp only [JSObject.values, List.length_map]
  rw [if_neg (by omega)]

theorem cleanup_sublist (s : Store) : (cleanupOldConversations s).Sublist s := by
  unfold cleanupOldConversations
  simp only
  split
  · exact List.filter_sublist _
  · exact List.Sublist.refl _

theorem values_nodup (s : Store) (hk : (JSObject.keys s).Nodup) (hid : KeysAreIds s) :
    (JSObject.values s).Nodup := by
  have h : (JSObject.values s).map Conversation.id = JSObject.keys s := by
    simp only [JSObject.values, JSObject.keys, List.map_map]
    apply List.map_congr_left
    intro e he
    exact hid e he
  apply List.Nodup.of_map Conversation.id
  rw [h]
  exact hk

theorem cleanup_eq_filter (s : Store) (hk : (JSObject.keys s).Nodup) (hid : KeysAreIds s)
    (h : maxStoredConversations < s.length) :
    cleanupOldConversations s =
      s.filter (fun e => decide (e.2 ∈ (sortByLastUpdated (JSObject.values s)).take
        maxStoredConversations)) := by
  unfold cleanupOldConversations
  simp only [JSObject.values, List.length_map]
  rw [if_pos h]
  apply List.filter_congr
  intro e he
  rw [Bool.eq_iff_iff]
  simp only [List.any_eq_true, decide_eq_true_eq]
  constructor
  · rintro ⟨conv, hc, hce⟩
    have hc' : conv ∈ s.map Prod.snd :=
      (sortByLastUpdated_perm _).subset (List.mem_of_mem_take hc)
    obtain ⟨e', he', rfl⟩ := List.mem_map.1 hc'
    have hkey : e'.1 = e.1 := by rw [← hid e' he']; exact hce
    have : e' = e := List.inj_on_of_nodup_map hk he' he hkey
    rw [← this]
    exact hc
  · intro hm
    exact ⟨e.2, hm, hid e he⟩

theorem cleanup_large (s : Store) (hk : (JSObject.keys s).Nodup) (hid : KeysAreIds s)
    (h : maxStoredConversations < s.length) :
    (cleanupOldConversations s).length = maxStoredConversations ∧
    ∀ kept ∈ cleanupOldConversations s, ∀ ev ∈ s, ev ∉ cleanupOldConversations s →
      ev.2.lastUpdated ≤ kept.2.lastUpdated := by
  rw [cleanup_eq_filter s hk hid h]
  set sorted := sortByLastUpdated (JSObject.values s) with hsorted
  have hperm : sorted.Perm (JSObject.values s) := sortByLastUpdated_perm _
  have hvn : (JSObject.values s).Nodup := values_nodup s hk hid
  have hsn : sorted.Nodup := hperm.nodup_iff.2 hvn
  have hlen : sorted.length = s.length := by
    rw [hperm.length_eq]; simp [JSObject.values]
  constructor
  · have h1 : ((s.filter (fun e => decide (e.2 ∈ sorted.take maxStoredConversations))).map
        Prod.snd).Perm (sorted.take maxStoredConversations) := by
      rw [List.perm_ext_iff_of_nodup]
      · intro a
        simp only [List.mem_map, List.mem_filter, decide_eq_true_eq]
        constructor
        · rintro ⟨e, ⟨_, hm⟩, rfl⟩
          exact hm
        · intro ha
          have : a ∈ JSObject.values s := hperm.subset (List.mem_of_mem_take ha)
          obtain ⟨e, he, rfl⟩ := List.mem_map.1 this
          exact ⟨e, ⟨he, ha⟩, rfl⟩
      · have : ((s.filter (fun e => decide (e.2 ∈ sorted.take maxStoredConversations))).map
          Prod.snd).Sublist (JSObject.values s) :=
          List.Sublist.map _ (List.filter_sublist _)
        exact hvn.sublist this
      · exact hsn.sublist (List.take_sublist _ _)
    have h2 := h1.length_eq
    rw [List.length_map, List.length_take, hlen] at h2
    rw [h2]
    omega
  · intro kept hkept ev hev hnot
    simp only [List.mem_filter, decide_eq_true_eq, not_and] at hkept hnot
    have hk1 : kept.2 ∈ sorted.take maxStoredConversations := hkept.2
    have he1 : ev.2 ∉ sorted.take maxStoredConversations := hnot hev
    have he2 : ev.2 ∈ sorted := hperm.symm.subset (List.mem_map_of_mem Prod.snd hev)
    have he3 : ev.2 ∈ sorted.drop maxStoredConversations := by
      rw [← List.take_append_drop maxStoredConversations sorted] at he2
      rcases List.mem_append.1 he2 with h' | h'
      · exact absurd h' he1
      · exact h'
    have hs := sortByLastUpdated_sorted (JSObject.values s)
    rw [← hsorted, ← List.take_append_drop maxStoredConversations sorted,
      List.pairwise_append] at hs
    exact hs.2.2 _ hk1 _ he3

end ChatStorage

open ChatStorage Examples

namespace ChatStorage

theorem save_result (blob : Blob) (id : JSString) (msgs : List Message)
    (title : Option JSString) (now1 now2 : Nat) (writeOk : Bool) :
    saveConversation blob id msgs title now1 now2 writeOk =
      if writeOk then
        (true, Blob.stored (cleanupOldConversations
          (JSObject.set (getAllConversations blob) id (newRecord id msgs title now1 now2))))
      else (false, blob) := rfl

theorem save_true (blob : Blob) (id : JSString) (msgs : List Message)
    (title : Option JSString) (now1 now2 : Nat) (writeOk : Bool)
    (h : (saveConversation blob id msgs title now1 now2 writeOk).1 = true) :
    writeOk = true := by
  rw [save_result] at h
  cases writeOk
  · simp at h
  · rfl

theorem get_cleanup (s : Store) (k : JSString) (r : Conversation)
    (h : JSObject.get (cleanupOldConversations s) k = some r) : JSObject.get s k = some r := by
  unfold cleanupOldConversations at h
  simp only at h
  split at h
  · rw [JSObject.get_filter_key
      (fun key => ((sortByLastUpdated (JSObject.values s)).take maxStoredConversations).any
        (fun conv => decide (conv.id = key)))] at h
    split at h
    · exact h
    · exact Option.noConfusion h
  · exact h

theorem mem_take_of_sorted (l : List Conversation) (x : Conversation) (n : Nat)
    (hs : l.Pairwise (fun a b => b.lastUpdated ≤ a.lastUpdated)) (hx : x ∈ l)
    (hc : (l.filter (fun a => decide (x.lastUpdated ≤ a.lastUpdated))).length ≤ n) :
    x ∈ l.take n := by
  obtain ⟨l1, l2, rfl⟩ := List.append_of_mem hx
  rw [List.pairwise_append] at hs
  have hall : ∀ a ∈ l1, x.lastUpdated ≤ a.lastUpdated := fun a ha =>
    hs.2.2 a ha x (List.mem_cons_self _ _)
  have h1 : l1.filter (fun a => decide (x.lastUpdated ≤ a.lastUpdated)) = l1 := by
    rw [List.filter_eq_self]
    intro a ha
    simpa using hall a ha
  rw [List.filter_append, h1, List.length_append, List.filter_cons] at hc
  simp only [le_refl, decide_True, if_true, List.length_cons] at hc
  have hlt : l1.length < n := by omega
  rw [List.take_append_eq_append_take, List.mem_append]
  right
  obtain ⟨m, hm⟩ : ∃ m, n - l1.length = m + 1 := ⟨n - l1.length - 1, by omega⟩
  rw [hm, List.take_succ_cons]
  exact List.mem_cons_self _ _

theorem get_cleanup_kept (s : Store) (k : JSString) (r : Conversation)
    (hget : JSObject.get s k = some r) (hid : r.id = k)
    (hc : (s.filter (fun e => decide (r.lastUpdated ≤ e.2.lastUpdated))).length
      ≤ maxStoredConversations) :
    JSObject.get (cleanupOldConversations s) k = some r := by
  unfold cleanupOldConversations
  simp only
  split
  · rw [JSObject.get_filter_key
      (fun key => ((sortByLastUpdated (JSObject.values s)).take maxStoredConversations).any
        (fun conv => decide (conv.id = key)))]
    have hmem : r ∈ (sortByLastUpdated (JSObject.values s)).take maxStoredConversations := by
      apply mem_take_of_sorted _ _ _ (sortByLastUpdated_sorted _)
      · exact (sortByLastUpdated_perm _).symm.subset
          (List.mem_map_of_mem Prod.snd (JSObject.get_mem s k r hget))
      · rw [((sortByLastUpdated_perm (JSObject.values s)).filter _).length_eq]
        have : (JSObject.values s).filter (fun a => decide (r.lastUpdated ≤ a.lastUpdated)) =
            (s.filter (fun e => decide (r.lastUpdated ≤ e.2.lastUpdated))).map Prod.snd := by
          simp only [JSObject.values, List.filter_map]
          rfl
        rw [this, List.length_map]
        exact hc
    have : (((sortByLastUpdated (JSObject.values s)).take maxStoredConversations).any
        (fun conv => decide (conv.id = k))) = true := by
      rw [List.any_eq_true]
      exact ⟨r, hmem, by simpa using hid⟩
    simp only [this, if_true]
    exact hget
  · exact hget

/-- What `loadConversation` finds under `id` after a successful save is the
record just written, if it finds anything. -/
theorem load_after_save (blob : Blob) (id : JSString) (msgs : List Message)
    (title : Option JSString) (now1 now2 : Nat) (r : Conversation)
    (h : loadConversation (saveConversation blob id msgs title now1 now2 true).2 id = some r) :
    r = newRecord id msgs title now1 now2 := by
  rw [save_result] at h
  simp only [if_true, loadConversation, getAllConversations] at h
  have h2 := get_cleanup _ _ _ h
  rw [JSObject.get_set_self] at h2
  exact (Option.some.inj h2).symm

/-- The record just written is found again when at most
`maxStoredConversations` records of the collection after the write are at
least as recently updated as it. -/
theorem load_after_save_kept (blob : Blob) (id : JSString) (msgs : List Message)
    (title : Option JSString) (now1 now2 : Nat)
    (hc : ((JSObject.set (getAllConversations blob) id
        (newRecord id msgs title now1 now2)).filter
          (fun e => decide (now2 ≤ e.2.lastUpdated))).length ≤ maxStoredConversations) :
    loadConversation (saveConversation blob id msgs title now1 now2 true).2 id =
      some (newRecord id msgs title now1 now2) := by
  rw [save_result]
  simp only [if_true, loadConversation, getAllConversations]
  exact get_cleanup_kept _ _ _ (JSObject.get_set_self _ _ _) rfl hc

theorem keysAreIds_set (s : Store) (id : JSString) (r : Conversation) (hr : r.id = id)
    (h : KeysAreIds s) : KeysAreIds (JSObject.set s id r) := by
  induction s with
  | nil =>
    intro e he
    simp only [JSObject.set, List.mem_singleton] at he
    subst he
    exact hr
  | cons e0 rest ih =>
    obtain ⟨k0, w⟩ := e0
    have hrest : KeysAreIds rest := fun e he => h e (List.mem_cons_of_mem _ he)
    intro e he
    simp only [JSObject.set] at he
    split at he
    · rcases List.mem_cons.1 he with he | he
      · subst he
        rename_i hk
        simp [hr, hk]
      · exact hrest e he
    · rcases List.mem_cons.1 he with he | he
      · subst he
        exact h _ (List.mem_cons_self _ _)
      · exact ih hrest e he

end ChatStorage

open ChatStorage Examples

/-- C4 (eviction bound).  For a collection whose keys are distinct and equal
their records' ids, a successful `saveConversation` leaves at most
`maxStoredConversations` (20) conversations; and when the collection held
more than 20 records after the write, exactly 20 survive, and every
surviving record has `lastUpdated` at least that of every evicted one. -/
theorem C4_eviction_bound (blob : Blob) (id : JSString) (msgs : List Message)
    (title : Option JSString) (now1 now2 : Nat) (writeOk : Bool)
    (hkeys : (JSObject.keys (getAllConversations blob)).Nodup)
    (hids : KeysAreIds (getAllConversations blob))
    (hret : (saveConversation blob id msgs title now1 now2 writeOk).1 = true) :
    (getAllConversations (saveConversation blob id msgs title now1 now2 writeOk).2).length
        ≤ 20 ∧
    (20 < (JSObject.set (getAllConversations blob) id
            (newRecord id msgs title now1 now2)).length →
      (getAllConversations
          (saveConversation blob id msgs title now1 now2 writeOk).2).length = 20 ∧
      ∀ kept ∈ getAllConversations (saveConversation blob id msgs title now1 now2 writeOk).2,
        ∀ evicted ∈ JSObject.set (getAllConversations blob) id
            (newRecord id msgs title now1 now2),
          evicted ∉ getAllConversations
              (saveConversation blob id msgs title now1 now2 writeOk).2 →
            evicted.2.lastUpdated ≤ kept.2.lastUpdated) := by
  have hw := save_true _ _ _ _ _ _ _ hret
  subst hw
  rw [save_result]
  simp only [if_true]
  show (cleanupOldConversations (JSObject.set (getAllConversations blob) id
      (newRecord id msgs title now1 now2))).length ≤ 20 ∧
    (20 < (JSObject.set (getAllConversations blob) id
            (newRecord id msgs title now1 now2)).length →
      (cleanupOldConversations (JSObject.set (getAllConversations blob) id
        (newRecord id msgs title now1 now2))).length = 20 ∧
      ∀ kept ∈ cleanupOldConversations (JSObject.set (getAllConversations blob) id
          (newRecord id msgs title now1 now2)),
        ∀ evicted ∈ JSObject.set (getAllConversations blob) id
            (newRecord id msgs title now1 now2),
          evicted ∉ cleanupOldConversations (JSObject.set (getAllConversations blob) id
              (newRecord id msgs title now1 now2)) →
            evicted.2.lastUpdated ≤ kept.2.lastUpdated)
  have hk2 := JSObject.nodup_keys_set (getAllConversations blob) id
    (newRecord id msgs title now1 now2) hkeys
  have hi2 := keysAreIds_set (getAllConversations blob) id
    (newRecord id msgs title now1 now2) rfl hids
  by_cases hlen : maxStoredConversations <
      (JSObject.set (getAllConversations blob) id (newRecord id msgs title now1 now2)).length
  · have h := cleanup_large _ hk2 hi2 hlen
    refine ⟨by rw [h.1]; exact Nat.le_refl _, fun _ => ⟨h.1, h.2⟩⟩
  · have hsmall : (JSObject.set (getAllConversations blob) id
        (newRecord id msgs title now1 now2)).length ≤ maxStoredConversations := by omega
    rw [cleanup_small _ hsmall]
    refine ⟨hsmall, fun h => absurd h hlen⟩

/-- Witness for C4: saving a twenty-first conversation at time 200 into a
store of twenty conversations last updated at time 100. -/
theorem C4_eviction_bound_witness :
    (getAllConversations (saveConversation (Blob.stored (storeOf 20 100)) "conv_9_z".toList
        [userMsg "hello"] none 200 200 true).2).length ≤ 20 ∧
    (20 < (JSObject.set (getAllConversations (Blob.stored (storeOf 20 100))) "conv_9_z".toList
            (newRecord "conv_9_z".toList [userMsg "hello"] none 200 200)).length →
      (getAllConversations (saveConversation (Blob.stored (storeOf 20 100)) "conv_9_z".toList
        [userMsg "hello"] none 200 200 true).2).length = 20 ∧
      ∀ kept ∈ getAllConversations (saveConversation (Blob.stored (storeOf 20 100))
          "conv_9_z".toList [userMsg "hello"] none 200 200 true).2,
        ∀ evicted ∈ JSObject.set (getAllConversations (Blob.stored (storeOf 20 100)))
            "conv_9_z".toList (newRecord "conv_9_z".toList [userMsg "hello"] none 200 200),
          evicted ∉ getAllConversations (saveConversation (Blob.stored (storeOf 20 100))
              "conv_9_z".toList [userMsg "hello"] none 200 200 true).2 →
            evicted.2.lastUpdated ≤ kept.2.lastUpdated) :=
  C4_eviction_bound (Blob.stored (storeOf 20 100)) "conv_9_z".toList [userMsg "hello"] none
    200 200 true (by decide) (by decide) (by decide)

open ChatStorage Examples

/-- C5, as stated, fails: with twenty stored conversations whose
`lastUpdated` equals the clock reading of the call, saving a new
conversation returns `true` and the store holds no record under the new id
(the stable sort keeps the twenty older entries in front of it). -/
theorem C5_counterexample :
    (saveConversation (Blob.stored (storeOf 20 100)) "conv_9_z".toList
        [userMsg "hello"] none 100 100 true).1 = true ∧
    "conv_9_z".toList ∉ JSObject.keys (getAllConversations
      (saveConversation (Blob.stored (storeOf 20 100)) "conv_9_z".toList
        [userMsg "hello"] none 100 100 true).2) := by
  decide

/-- C5, amended.  After `saveConversation(id, messages)` returns `true`, the
store contains a record under `id`, provided that at most
`maxStoredConversations` records of the collection after the write, the new
one included, have `lastUpdated` at least the clock reading given to the new
record. -/
theorem C5_written_record_kept (blob : Blob) (id : JSString) (msgs : List Message)
    (title : Option JSString) (now1 now2 : Nat) (writeOk : Bool)
    (hret : (saveConversation blob id msgs title now1 now2 writeOk).1 = true)
    (hrecent : ((JSObject.set (getAllConversations blob) id
        (newRecord id msgs title now1 now2)).filter
          (fun e => decide (now2 ≤ e.2.lastUpdated))).length ≤ maxStoredConversations) :
    id ∈ JSObject.keys (getAllConversations
      (saveConversation blob id msgs title now1 now2 writeOk).2) := by
  have hw := save_true _ _ _ _ _ _ _ hret
  subst hw
  have h := load_after_save_kept blob id msgs title now1 now2 hrecent
  by_contra hne
  rw [← JSObject.get_eq_none_iff] at hne
  unfold loadConversation at h
  rw [hne] at h
  exact Option.noConfusion h

/-- Witness for the amended C5: a twenty-first conversation saved at time
200 into a store of twenty conversations last updated at time 100. -/
theorem C5_written_record_kept_witness :
    "conv_9_z".toList ∈ JSObject.keys (getAllConversations
      (saveConversation (Blob.stored (storeOf 20 100)) "conv_9_z".toList
        [userMsg "hello"] none 200 200 true).2) :=
  C5_written_record_kept (Blob.stored (storeOf 20 100)) "conv_9_z".toList
    [userMsg "hello"] none 200 200 true (by decide) (by decide)

/-- C6, as stated, fails: when the clock has gone back (reading 50) behind
twenty stored conversations last updated at time 100, `saveConversation`
returns `true` and `loadConversation` of the same id returns `null`. -/
theorem C6_counterexample :
    (saveConversation (Blob.stored (storeOf 20 100)) "conv_9_z".toList
        [userMsg "hello"] none 50 50 true).1 = true ∧
    loadConversation (saveConversation (Blob.stored (storeOf 20 100)) "conv_9_z".toList
        [userMsg "hello"] none 50 50 true).2 "conv_9_z".toList = none := by
  decide

/-- C6, amended.  If `saveConversation(id, messages)` returns `true` and at
most `maxStoredConversations` records of the collection after the write, the
new one included, have `lastUpdated` at least the new record's, then
`loadConversation(id)` returns a record whose `id` is `id` and whose
`messages` are the saved ones; and `loadConversation` of an id that is not a
key of the store returns `null`. -/
theorem C6_save_load_round_trip (blob : Blob) (id : JSString) (msgs : List Message)
    (title : Option JSString) (now1 now2 : Nat) (writeOk : Bool)
    (hret : (saveConversation blob id msgs title now1 now2 writeOk).1 = true)
    (hrecent : ((JSObject.set (getAllConversations blob) id
        (newRecord id msgs title now1 now2)).filter
          (fun e => decide (now2 ≤ e.2.lastUpdated))).length ≤ maxStoredConversations) :
    (∃ r, loadConversation (saveConversation blob id msgs title now1 now2 writeOk).2 id
        = some r ∧ r.id = id ∧ r.messages = msgs) ∧
    (∀ other, other ∉ JSObject.keys (getAllConversations blob) →
      loadConversation blob other = none) := by
  have hw := save_true _ _ _ _ _ _ _ hret
  subst hw
  refine ⟨⟨newRecord id msgs title now1 now2,
    load_after_save_kept blob id msgs title now1 now2 hrecent, rfl, rfl⟩, ?_⟩
  intro other hother
  unfold loadConversation
  exact (JSObject.get_eq_none_iff _ _).2 hother

/-- Witness for the amended C6: a second conversation saved into a store
holding one. -/
theorem C6_save_load_round_trip_witness :
    (∃ r, loadConversation (saveConversation (Blob.stored oneStore) "conv_9_z".toList
        [userMsg "hello", assistantMsg "hi there"] none 5 5 true).2 "conv_9_z".toList
        = some r ∧ r.id = "conv_9_z".toList ∧
          r.messages = [userMsg "hello", assistantMsg "hi there"]) ∧
    (∀ other, other ∉ JSObject.keys (getAllConversations (Blob.stored oneStore)) →
      loadConversation (Blob.stored oneStore) other = none) :=
  C6_save_load_round_trip (Blob.stored oneStore) "conv_9_z".toList
    [userMsg "hello", assistantMsg "hi there"] none 5 5 true (by decide) (by decide)

/-- C8, as stated, fails: the stored conversation `conv_7_x` is titled
`Custom`; saving it again without a title leaves it titled `hello`, the text
of its first user message. -/
theorem C8_counterexample :
    (loadConversation (Blob.stored oneStore) "conv_7_x".toList).map Conversation.title
      = some "Custom".toList ∧
    (loadConversation (saveConversation (Blob.stored oneStore) "conv_7_x".toList
        [userMsg "hello"] none 5 5 true).2 "conv_7_x".toList).map Conversation.title
      = some "hello".toList := by
  decide

/-- C8, amended.  A successful `saveConversation(id, messages)` without a
title stores under `id` the title inferred from `messages`, whether or not a
conversation was already stored under `id`: the earlier title is replaced,
not preserved. -/
theorem C8_title_inferred_on_every_save (blob : Blob) (id : JSString)
    (msgs : List Message) (now1 now2 : Nat) (writeOk : Bool) (r : Conversation)
    (hret : (saveConversation blob id msgs none now1 now2 writeOk).1 = true)
    (hload : loadConversation (saveConversation blob id msgs none now1 now2 writeOk).2 id
      = some r) :
    r.title = inferTitle msgs := by
  have hw := save_true _ _ _ _ _ _ _ hret
  subst hw
  rw [load_after_save blob id msgs none now1 now2 r hload]
  rfl

/-- Witness for the amended C8: the conversation titled `Custom` saved again
without a title. -/
theorem C8_title_inferred_on_every_save_witness :
    (record "conv_7_x" "hi" 5).title = inferTitle [userMsg "hi"] :=
  C8_title_inferred_on_every_save (Blob.stored oneStore) "conv_7_x".toList
    [userMsg "hi"] 5 5 true (record "conv_7_x" "hi" 5) (by decide) (by decide)

open ChatStorage Examples

/-- C9 (title inference).  After a successful `saveConversation` without a
title, the record stored under the id has: the content `c` of the first user
message as its title when `c` has at most 50 code units; the first 50 code
units of `c` followed by `...`, 53 code units in all, when `c` is longer;
and `New Conversation` when no message has role user. -/
theorem C9_title_inference (blob : Blob) (id : JSString) (msgs : List Message)
    (now1 now2 : Nat) (writeOk : Bool) (r : Conversation)
    (hret : (saveConversation blob id msgs none now1 now2 writeOk).1 = true)
    (hload : loadConversation (saveConversation blob id msgs none now1 now2 writeOk).2 id
      = some r) :
    (∀ m, msgs.find? (fun msg => decide (msg.role = Role.user)) = some m →
        m.content.length ≤ 50 → r.title = m.content) ∧
    (∀ m, msgs.find? (fun msg => decide (msg.role = Role.user)) = some m →
        50 < m.content.length →
          r.title = m.content.take 50 ++ "...".toList ∧ r.title.length = 53) ∧
    (msgs.find? (fun msg => decide (msg.role = Role.user)) = none →
        r.title = "New Conversation".toList) := by
  have hw := save_true _ _ _ _ _ _ _ hret
  subst hw
  rw [load_after_save blob id msgs none now1 now2 r hload]
  have ht : (newRecord id msgs none now1 now2).title = inferTitle msgs := rfl
  rw [ht]
  unfold inferTitle
  refine ⟨?_, ?_, ?_⟩
  · intro m hm hlen
    rw [hm]
    simp only
    rw [if_neg (by omega), List.append_nil, List.take_of_length_le hlen]
  · intro m hm hlen
    rw [hm]
    simp only
    rw [if_pos hlen]
    refine ⟨rfl, ?_⟩
    rw [List.length_append, List.length_take]
    have : ("...".toList).length = 3 := rfl
    rw [this]
    omega
  · intro hnone
    rw [hnone]

/-- Witness for C9: the example of the specification, a first user message
of 53 code units, saved as a new conversation. -/
theorem C9_title_inference_witness :
    (∀ m, [userMsg "Hello there, how are you today please respond quickly"].find?
          (fun msg => decide (msg.role = Role.user)) = some m →
        m.content.length ≤ 50 →
          (newRecord "conv_9_z".toList
            [userMsg "Hello there, how are you today please respond quickly"] none 5 5).title
            = m.content) ∧
    (∀ m, [userMsg "Hello there, how are you today please respond quickly"].find?
          (fun msg => decide (msg.role = Role.user)) = some m →
        50 < m.content.length →
          (newRecord "conv_9_z".toList
            [userMsg "Hello there, how are you today please respond quickly"] none 5 5).title
            = m.content.take 50 ++ "...".toList ∧
          (newRecord "conv_9_z".toList
            [userMsg "Hello there, how are you today please respond quickly"] none 5 5).title.length
            = 53) ∧
    ([userMsg "Hello there, how are you today please respond quickly"].find?
          (fun msg => decide (msg.role = Role.user)) = none →
        (newRecord "conv_9_z".toList
            [userMsg "Hello there, how are you today please respond quickly"] none 5 5).title
          = "New Conversation".toList) :=
  C9_title_inference (Blob.stored oneStore) "conv_9_z".toList
    [userMsg "Hello there, how are you today please respond quickly"] 5 5 true
    (newRecord "conv_9_z".toList
      [userMsg "Hello there, how are you today please respond quickly"] none 5 5)
    (by decide) (by decide)

/-- C10, as stated, fails for the empty title: saved with the title `""`,
the new conversation is stored with the title inferred from its first user
message. -/
theorem C10_counterexample :
    (loadConversation (saveConversation Blob.absent "conv_9_z".toList
        [userMsg "hello"] (some []) 5 5 true).2 "conv_9_z".toList).map Conversation.title
      = some "hello".toList ∧
    (loadConversation (saveConversation Blob.absent "conv_9_z".toList
        [userMsg "hello"] (some []) 5 5 true).2 "conv_9_z".toList).map Conversation.title
      ≠ some [] := by
  decide

/-- C10, amended.  For every non-empty title supplied to a successful
`saveConversation` and every message list, the record stored under the id
has the supplied title; the empty title is treated as no title and the title
is inferred from the messages. -/
theorem C10_explicit_title_wins (blob : Blob) (id : JSString) (msgs : List Message)
    (title : JSString) (now1 now2 : Nat) (writeOk : Bool) (r : Conversation)
    (hret : (saveConversation blob id msgs (some title) now1 now2 writeOk).1 = true)
    (hload : loadConversation
      (saveConversation blob id msgs (some title) now1 now2 writeOk).2 id = some r) :
    (title ≠ [] → r.title = title) ∧ (title = [] → r.title = inferTitle msgs) := by
  have hw := save_true _ _ _ _ _ _ _ hret
  subst hw
  rw [load_after_save blob id msgs (some title) now1 now2 r hload]
  have ht : (newRecord id msgs (some title) now1 now2).title =
      resolveTitle (some title) msgs := rfl
  rw [ht]
  unfold resolveTitle titleMissing
  constructor
  · intro hne
    cases title with
    | nil => exact absurd rfl hne
    | cons c cs => rfl
  · intro he
    subst he
    rfl

/-- Witness for the amended C10: a new conversation saved under the title
`My chat`. -/
theorem C10_explicit_title_wins_witness :
    ("My chat".toList ≠ [] →
      (newRecord "conv_9_z".toList [userMsg "hello"] (some "My chat".toList) 5 5).title
        = "My chat".toList) ∧
    ("My chat".toList = [] →
      (newRecord "conv_9_z".toList [userMsg "hello"] (some "My chat".toList) 5 5).title
        = inferTitle [userMsg "hello"]) :=
  C10_explicit_title_wins Blob.absent "conv_9_z".toList [userMsg "hello"] "My chat".toList
    5 5 true (newRecord "conv_9_z".toList [userMsg "hello"] (some "My chat".toList) 5 5)
    (by decide) (by decide)

/-- C11, as stated, fails: the conversation `conv_7_x` was created at time
1; saved again at time 5, its creation timestamp is 5. -/
theorem C11_counterexample :
    (loadConversation (Blob.stored oneStore) "conv_7_x".toList).map Conversation.timestamp
      = some 1 ∧
    (loadConversation (saveConversation (Blob.stored oneStore) "conv_7_x".toList
        [userMsg "hello"] none 5 6 true).2 "conv_7_x".toList).map Conversation.timestamp
      = some 5 := by
  decide

/-- C11, amended.  A successful `saveConversation` replaces the whole record
under the id: whatever was stored before, the record found afterwards has
the first clock reading of the call as `timestamp` and the second as
`lastUpdated`, the given messages, and the supplied or inferred title.  The
earlier creation timestamp is not kept. -/
theorem C11_timestamp_reset_on_every_save (blob : Blob) (id : JSString)
    (msgs : List Message) (title : Option JSString) (now1 now2 : Nat) (writeOk : Bool)
    (r : Conversation)
    (hret : (saveConversation blob id msgs title now1 now2 writeOk).1 = true)
    (hload : loadConversation (saveConversation blob id msgs title now1 now2 writeOk).2 id
      = some r) :
    r.timestamp = now1 ∧ r.lastUpdated = now2 ∧ r.messages = msgs ∧ r.id = id ∧
    r.title = resolveTitle title msgs := by
  have hw := save_true _ _ _ _ _ _ _ hret
  subst hw
  rw [load_after_save blob id msgs title now1 now2 r hload]
  exact ⟨rfl, rfl, rfl, rfl, rfl⟩

/-- Witness for the amended C11: the conversation created at time 1 saved
again with clock readings 5 and 6. -/
theorem C11_timestamp_reset_on_every_save_witness :
    (newRecord "conv_7_x".toList [userMsg "hello"] none 5 6).timestamp = 5 ∧
    (newRecord "conv_7_x".toList [userMsg "hello"] none 5 6).lastUpdated = 6 ∧
    (newRecord "conv_7_x".toList [userMsg "hello"] none 5 6).messages = [userMsg "hello"] ∧
    (newRecord "conv_7_x".toList [userMsg "hello"] none 5 6).id = "conv_7_x".toList ∧
    (newRecord "conv_7_x".toList [userMsg "hello"] none 5 6).title
      = resolveTitle none [userMsg "hello"] :=
  C11_timestamp_reset_on_every_save (Blob.stored oneStore) "conv_7_x".toList
    [userMsg "hello"] none 5 6 true (newRecord "conv_7_x".toList [userMsg "hello"] none 5 6)
    (by decide) (by decide)

open ChatStorage Examples

namespace JSObject

theorem delete_of_not_mem (obj : Store) (k : JSString) (h : k ∉ keys obj) :
    delete obj k = obj := by
  unfold delete
  rw [List.filter_eq_self]
  intro e he
  simp only [ne_eq, decide_not, Bool.not_eq_true', decide_eq_false_iff_not]
  intro hc
  exact h (hc ▸ List.mem_map_of_mem Prod.fst he)

theorem delete_delete (obj : Store) (k : JSString) : delete (delete obj k) k = delete obj k := by
  unfold delete
  rw [List.filter_filter]
  simp

theorem get_delete_self (obj : Store) (k : JSString) : get (delete obj k) k = none := by
  rw [get_eq_none_iff]
  unfold delete keys
  intro h
  obtain ⟨e, he, hk⟩ := List.mem_map.1 h
  have := (List.mem_filter.1 he).2
  simp at this
  exact this hk

theorem get_delete_other (obj : Store) (k k' : JSString) (h : k' ≠ k) :
    get (delete obj k) k' = get obj k' := by
  have := get_filter_key (fun key => decide (key ≠ k)) obj k'
  unfold delete
  rw [this]
  simp [h]

theorem length_set_of_mem (obj : Store) (k : JSString) (v : Conversation) (h : k ∈ keys obj) :
    keys (set obj k v) = keys obj := by
  rw [keys_set, if_pos h]

end JSObject

/-- C12 (delete).  `deleteConversation(id)` returns `true` when the write
succeeds; if `id` is not a key of the store the collection read back
afterwards is the collection before; a second call returns `true` again and
leaves the blob of the first call; and after deleting, `id` is gone, every
other key reads as before, and what remains is the collection without the
entries filed under `id`. -/
theorem C12_delete_idempotent (blob : Blob) (id : JSString) :
    (deleteConversation blob id true).1 = true ∧
    (id ∉ JSObject.keys (getAllConversations blob) →
      getAllConversations (deleteConversation blob id true).2 = getAllConversations blob) ∧
    deleteConversation (deleteConversation blob id true).2 id true
      = (true, (deleteConversation blob id true).2) ∧
    loadConversation (deleteConversation blob id true).2 id = none ∧
    (∀ other, other ≠ id →
      loadConversation (deleteConversation blob id true).2 other
        = loadConversation blob other) ∧
    getAllConversations (deleteConversation blob id true).2
      = (getAllConversations blob).filter (fun e => decide (e.1 ≠ id)) := by
  refine ⟨rfl, ?_, ?_, ?_, ?_, rfl⟩
  · intro h
    exact JSObject.delete_of_not_mem _ _ h
  · show (true, Blob.stored (JSObject.delete (JSObject.delete (getAllConversations blob) id) id))
      = (true, Blob.stored (JSObject.delete (getAllConversations blob) id))
    rw [JSObject.delete_delete]
  · exact JSObject.get_delete_self _ _
  · intro other h
    exact JSObject.get_delete_other _ _ _ h

/-- C13 (rename).  `updateConversationTitle(id, newTitle)` returns `false`
and leaves the blob as it was when `id` is not stored; when `id` is stored
and the write succeeds it returns `true`, the record under `id` gets the new
title and the current time as `lastUpdated` and keeps its `id`, `messages`
and `timestamp`, the keys stay as they were, and every other key reads as
before. -/
theorem C13_rename (blob : Blob) (id newTitle : JSString) (now : Nat) :
    (∀ writeOk, loadConversation blob id = none →
      updateConversationTitle blob id newTitle now writeOk = (false, blob)) ∧
    (∀ conv, loadConversation blob id = some conv →
      (updateConversationTitle blob id newTitle now true).1 = true ∧
      loadConversation (updateConversationTitle blob id newTitle now true).2 id
        = some { id := conv.id, title := newTitle, messages := conv.messages,
                 timestamp := conv.timestamp, lastUpdated := now } ∧
      JSObject.keys (getAllConversations (updateConversationTitle blob id newTitle now true).2)
        = JSObject.keys (getAllConversations blob) ∧
      ∀ other, other ≠ id →
        loadConversation (updateConversationTitle blob id newTitle now true).2 other
          = loadConversation blob other) := by
  constructor
  · intro writeOk h
    unfold loadConversation at h
    unfold updateConversationTitle
    simp only [h]
  · intro conv h
    unfold loadConversation at h
    have hu : updateConversationTitle blob id newTitle now true =
        (true, Blob.stored (JSObject.set (getAllConversations blob) id
          { conv with title := newTitle, lastUpdated := now })) := by
      unfold updateConversationTitle
      simp only [h, if_true]
    rw [hu]
    refine ⟨rfl, ?_, ?_, ?_⟩
    · exact JSObject.get_set_self _ _ _
    · show JSObject.keys (JSObject.set (getAllConversations blob) id _) = _
      apply JSObject.length_set_of_mem
      by_contra hc
      rw [← JSObject.get_eq_none_iff, h] at hc
      exact Option.noConfusion hc
    · intro other ho
      exact JSObject.get_set_other _ _ _ _ ho

/-- C14 (write failure).  When `localStorage.setItem` fails,
`saveConversation`, `deleteConversation` and `updateConversationTitle`
return `false` and leave the blob exactly as it was; and `saveConversation`
returns `false` only then: with a working write it returns `true` for every
id, message list, title and blob, an unreadable blob included. -/
theorem C14_write_failure_atomic (blob : Blob) (id : JSString) (msgs : List Message)
    (title : Option JSString) (newTitle : JSString) (now1 now2 : Nat) :
    saveConversation blob id msgs title now1 now2 false = (false, blob) ∧
    deleteConversation blob id false = (false, blob) ∧
    updateConversationTitle blob id newTitle now1 false = (false, blob) ∧
    (∀ writeOk, (saveConversation blob id msgs title now1 now2 writeOk).1 = false ↔
      writeOk = false) := by
  refine ⟨rfl, rfl, ?_, ?_⟩
  · unfold updateConversationTitle
    simp only
    split <;> rfl
  · intro writeOk
    cases writeOk
    · exact ⟨fun _ => rfl, fun _ => rfl⟩
    · constructor
      · intro h
        rw [save_result] at h
        simp at h
      · intro h
        exact Bool.noConfusion h

/-- C15 (summary list).  `getConversationList` returns one summary per
stored conversation: mapped back to ids the list is a permutation of the
stored records' ids, each summary copies `id`, `title`, `timestamp` and
`lastUpdated` from a stored record and counts its messages, `lastUpdated`
never increases along the list, and a missing or unreadable blob gives the
empty list.  The method only reads the blob. -/
theorem C15_summary_list (blob : Blob) :
    ((getConversationList blob).map Summary.id).Perm
      ((JSObject.values (getAllConversations blob)).map Conversation.id) ∧
    (getConversationList blob).length = (getAllConversations blob).length ∧
    (∀ s ∈ getConversationList blob, ∃ conv ∈ JSObject.values (getAllConversations blob),
      s.id = conv.id ∧ s.title = conv.title ∧ s.timestamp = conv.timestamp ∧
      s.lastUpdated = conv.lastUpdated ∧ s.messageCount = conv.messages.length) ∧
    (getConversationList blob).Pairwise (fun a b => b.lastUpdated ≤ a.lastUpdated) ∧
    getConversationList Blob.absent = [] ∧ getConversationList Blob.unreadable = [] := by
  have hperm := sortByLastUpdated_perm (JSObject.values (getAllConversations blob))
  refine ⟨?_, ?_, ?_, ?_, rfl, rfl⟩
  · unfold getConversationList
    rw [List.map_map]
    exact hperm.map _
  · unfold getConversationList
    rw [List.length_map, hperm.length_eq]
    simp [JSObject.values]
  · intro s hs
    unfold getConversationList at hs
    obtain ⟨conv, hc, rfl⟩ := List.mem_map.1 hs
    exact ⟨conv, hperm.subset hc, rfl, rfl, rfl, rfl, rfl⟩
  · unfold getConversationList
    rw [List.pairwise_map]
    exact sortByLastUpdated_sorted _

open ChatStorage ChromeAIChat Examples

namespace ChromeAIChat

theorem foldl_streamStep (chunks : List JSString) (acc : JSString) :
    chunks.foldl streamStep (acc, renderMarkdown acc) =
      (acc ++ chunks.flatten, renderMarkdown (acc ++ chunks.flatten)) := by
  induction chunks generalizing acc with
  | nil => simp
  | cons c cs ih =>
    rw [List.foldl_cons]
    show List.foldl streamStep (acc ++ c, renderMarkdown (acc ++ c)) cs = _
    rw [ih (acc ++ c), List.flatten_cons, List.append_assoc]

end ChromeAIChat

/-- C2 (chunking equivalence).  For every sequence of fragments, the
streaming loop of `sendMessage` ends with `response` equal to their
concatenation and with the assistant element showing the rendering of that
concatenation; in particular a `sendMessage` that passes its guard leaves
`renderMarkdown(T1 + ... + Tk)` displayed, wherever the fragment boundaries
fall. -/
theorem C2_chunking_equivalence (chunks : List JSString) :
    streamLoop chunks = (chunks.flatten, renderMarkdown chunks.flatten) ∧
    ∀ (w : World) (st : Session) (input : JSString),
      st.isInitialized = true → st.isProcessing = false → trim input ≠ [] →
        (sendMessage w st input chunks).2 = some (renderMarkdown chunks.flatten) := by
  have h : streamLoop chunks = (chunks.flatten, renderMarkdown chunks.flatten) := by
    unfold streamLoop
    rw [foldl_streamStep chunks []]
    rfl
  refine ⟨h, ?_⟩
  intro w st input hi hp ht
  unfold sendMessage
  have hne : (trim input).isEmpty = false := by
    cases hx : trim input with
    | nil => exact absurd hx ht
    | cons c cs => rfl
  simp only [hi, hp, hne, Bool.not_true, Bool.or_self, Bool.false_eq_true, if_false, h]

/-- C7 fails on the code: a turn in which the user sends `hi` and the stream
yields `Hel` and `lo` ends with `Hello` accumulated and displayed, while the
conversation persisted under the current id ends with an assistant message
whose content is the empty string; the only `saveConversation` call of the
turn is the one made when the empty assistant message was created. -/
theorem C7_persisted_assistant_content_is_empty :
    (streamLoop ["Hel".toList, "lo".toList]).1 = "Hello".toList ∧
    (sendMessage calmWorld (readySession Blob.absent) "hi".toList
        ["Hel".toList, "lo".toList]).1.currentConversationId = some "conv_1_x".toList ∧
    (loadConversation (sendMessage calmWorld (readySession Blob.absent) "hi".toList
        ["Hel".toList, "lo".toList]).1.blob "conv_1_x".toList).map
          (fun c => c.messages.map (fun m => (m.role, m.content))) =
      some [(Role.user, "hi".toList), (Role.assistant, [])] ∧
    (sendMessage calmWorld (readySession Blob.absent) "hi".toList
        ["Hel".toList, "lo".toList]).1.saveLog.length = 1 := by
  decide

open ChatStorage ChromeAIChat Examples

namespace ChromeAIChat

theorem addedMessages_append (a b : List Op) :
    addedMessages (a ++ b) = addedMessages a ++ addedMessages b := by
  induction a with
  | nil => rfl
  | cons op rest ih =>
    cases op with
    | addMessage role content =>
      simp only [List.cons_append, addedMessages]
      split <;> simp [ih]
    | clearChat => exact ih
    | startNewConversation => exact ih
    | saveCurrentConversation => exact ih
    | saveCurrentConversationManually answer => exact ih

theorem goodCall_mono (ops : List Op) (op : Op) (call : SaveCall) (h : GoodCall ops call) :
    GoodCall (ops ++ [op]) call := by
  obtain ⟨h1, h2, done, hd, hs⟩ := h
  exact ⟨h1, h2, done, hd.trans (List.prefix_append _ _), hs⟩

theorem ensure_fields (w : World) (st : Session) :
    (ensureConversationId w st).currentMessages = st.currentMessages ∧
    (ensureConversationId w st).saveLog = st.saveLog := by
  unfold ensureConversationId
  split <;> exact ⟨rfl, rfl⟩

theorem callSave_fields (w : World) (st : Session) (title : Option JSString) :
    (callSave w st title).2.currentMessages = st.currentMessages ∧
    ∃ call, (callSave w st title).2.saveLog = st.saveLog ++ [call] ∧
      call.messages = st.currentMessages := by
  unfold callSave
  exact ⟨rfl, _, rfl, rfl⟩

theorem quiet_refl (st : Session) : Quiet st st := ⟨rfl, fun _ h => Or.inl h⟩

theorem quiet_trans (a b c : Session) (h1 : Quiet a b) (h2 : Quiet b c) : Quiet a c := by
  refine ⟨h2.1.trans h1.1, ?_⟩
  intro call hc
  rcases h2.2 call hc with h | h
  · exact h1.2 call h
  · right
    rw [← h1.1]
    exact h

theorem quiet_ensure (w : World) (st : Session) : Quiet st (ensureConversationId w st) := by
  obtain ⟨h1, h2⟩ := ensure_fields w st
  exact ⟨h1, fun call hc => Or.inl (h2 ▸ hc)⟩

theorem quiet_callSave (w : World) (st : Session) (title : Option JSString)
    (hne : st.currentMessages ≠ []) : Quiet st (callSave w st title).2 := by
  obtain ⟨h1, call, h2, h3⟩ := callSave_fields w st title
  refine ⟨h1, ?_⟩
  intro c hc
  rw [h2, List.mem_append, List.mem_singleton] at hc
  rcases hc with hc | hc
  · exact Or.inl hc
  · subst hc
    exact Or.inr ⟨h3, hne⟩

theorem quiet_saveCurrent (w : World) (st : Session) :
    Quiet st (saveCurrentConversation w st) := by
  unfold saveCurrentConversation
  simp only
  split
  · rename_i hlen
    apply quiet_trans _ _ _ (quiet_ensure w st)
    apply quiet_callSave
    intro hc
    rw [hc] at hlen
    simp at hlen
  · exact quiet_ensure w st

theorem quiet_addSystem (w : World) (st : Session) (content : JSString) :
    addMessage w st Role.system content = st := by
  unfold addMessage
  simp

theorem inv_of_quiet (ops : List Op) (st st' : Session) (hq : Quiet st st')
    (h : SessionInv ops st) : SessionInv ops st' := by
  obtain ⟨h1, h2, h3⟩ := h
  refine ⟨by rw [hq.1]; exact h1, by rw [hq.1]; exact h2, ?_⟩
  intro call hc
  rcases hq.2 call hc with hc | ⟨hm, hne⟩
  · exact h3 call hc
  · exact ⟨by rw [hm]; exact hne, by rw [hm]; exact h1, ops, List.prefix_refl _,
      by rw [hm]; exact h2⟩

theorem inv_reset (ops : List Op) (st : Session) (cid : Option JSString)
    (h : SessionInv ops st) :
    SessionInv ops { st with currentConversationId := cid, currentMessages := [] } := by
  obtain ⟨_, _, h3⟩ := h
  exact ⟨fun m hm => by simp at hm, by simp [List.nil_suffix], h3⟩

theorem inv_mono (ops : List Op) (op : Op) (st : Session)
    (hadd : addedMessages [op] = []) (h : SessionInv ops st) :
    SessionInv (ops ++ [op]) st := by
  obtain ⟨h1, h2, h3⟩ := h
  refine ⟨h1, ?_, fun call hc => goodCall_mono ops op call (h3 call hc)⟩
  rw [addedMessages_append, hadd, List.append_nil]
  exact h2

theorem inv_addMessage (ops : List Op) (w : World) (st : Session) (role : Role)
    (content : JSString) (h : SessionInv ops st) :
    SessionInv (ops ++ [Op.addMessage role content]) (addMessage w st role content) := by
  by_cases hr : role = Role.system
  · subst hr
    rw [quiet_addSystem]
    exact inv_mono ops _ st (by simp [addedMessages]) h
  · obtain ⟨h1, h2, h3⟩ := h
    have hbase : SessionInv (ops ++ [Op.addMessage role content])
        { st with
          currentMessages := st.currentMessages ++
            [{ role := role, content := content, timestamp := w.clock st.tick }],
          tick := st.tick + 1 } := by
      refine ⟨?_, ?_, fun call hc => goodCall_mono ops _ call (h3 call hc)⟩
      · intro m hm
        simp only [List.mem_append, List.mem_singleton] at hm
        rcases hm with hm | hm
        · exact h1 m hm
        · subst hm
          exact hr
      · rw [addedMessages_append]
        simp only [List.map_append, List.map_cons, List.map_nil, addedMessages, ne_eq, hr,
          not_false_eq_true, if_true]
        obtain ⟨t, ht⟩ := h2
        exact ⟨t, by rw [← ht, List.append_assoc]⟩
    unfold addMessage
    simp only [ne_eq, hr, not_false_eq_true, if_true]
    split
    · exact inv_of_quiet _ _ _
        (quiet_trans _ _ _ (quiet_ensure w _) (quiet_saveCurrent w _)) hbase
    · exact hbase

theorem inv_step (ops : List Op) (w : World) (st : Session) (op : Op)
    (h : SessionInv ops st) : SessionInv (ops ++ [op]) (step w st op) := by
  cases op with
  | addMessage role content => exact inv_addMessage ops w st role content h
  | clearChat =>
    refine inv_mono ops Op.clearChat _ rfl ?_
    show SessionInv ops (clearChat w st)
    unfold clearChat
    simp only
    rw [quiet_addSystem]
    apply inv_reset ops _ _
    split
    · exact inv_of_quiet _ _ _ (quiet_saveCurrent w st) h
    · exact h
  | startNewConversation =>
    refine inv_mono ops Op.startNewConversation _ rfl ?_
    show SessionInv ops (startNewConversation w st)
    unfold startNewConversation
    simp only
    apply inv_reset ops _ none
    split
    · exact inv_of_quiet _ _ _ (quiet_saveCurrent w st) h
    · exact h
  | saveCurrentConversation =>
    refine inv_mono ops Op.saveCurrentConversation _ rfl ?_
    exact inv_of_quiet _ _ _ (quiet_saveCurrent w st) h
  | saveCurrentConversationManually answer =>
    refine inv_mono ops (Op.saveCurrentConversationManually answer) _ rfl ?_
    show SessionInv ops (saveCurrentConversationManually w st answer)
    unfold saveCurrentConversationManually
    split
    · rw [quiet_addSystem]
      exact h
    · rename_i hlen
      cases answer with
      | none => exact h
      | some customTitle =>
        simp only
        have hne : (ensureConversationId w st).currentMessages ≠ [] := by
          rw [(ensure_fields w st).1]
          intro hc
          exact hlen (by rw [hc]; rfl)
        have hq : Quiet st (callSave w (ensureConversationId w st) (some customTitle)).2 :=
          quiet_trans _ _ _ (quiet_ensure w st) (quiet_callSave w _ _ hne)
        split <;> (rw [quiet_addSystem]; exact inv_of_quiet _ _ _ hq h)

theorem inv_run (w : World) (blob : Blob) (ops : List Op) :
    SessionInv ops (run w (Session.initial blob) ops) := by
  induction ops using List.reverseRecOn with
  | nil =>
    exact ⟨fun m hm => by simp [run, Session.initial] at hm,
      by simp [run, Session.initial, addedMessages],
      fun call hc => by simp [run, Session.initial] at hc⟩
  | append_singleton ops op ih =>
    have : run w (Session.initial blob) (ops ++ [op]) =
        step w (run w (Session.initial blob) ops) op := by
      unfold run
      rw [List.foldl_append]
      rfl
    rw [this]
    exact inv_step ops w _ op ih

end ChromeAIChat

/-- C16 (what is persisted).  For every environment and every sequence of
session operations run from a fresh session, every message list passed to
`ChatStorage.saveConversation` is non-empty, holds no system message, and
lists, in order and without gaps, the latest non-system messages added by
the operations run up to that call. -/
theorem C16_persisted_messages (w : World) (blob : Blob) (ops : List Op) :
    ∀ call ∈ (run w (Session.initial blob) ops).saveLog,
      call.messages ≠ [] ∧ (∀ m ∈ call.messages, m.role ≠ Role.system) ∧
      ∃ done, done <+: ops ∧
        call.messages.map (fun m => (m.role, m.content)) <:+ addedMessages done :=
  fun call hc => (inv_run w blob ops).2.2 call hc

open ChromeAIChat JSRegExp

/-- C3 fails on the code: in the text `@@CODEBLOCK1` followed by a fenced
block with body `x`, the text before the fence and the placeholder of the
block read together as the placeholder number 1, which no block answers;
block 0 is never restored and its body `x` is absent from the output. -/
theorem C3_code_block_lost_after_placeholder_text :
    renderMarkdown "@@CODEBLOCK1```x```".toList
      = "<pre><code></code></pre>CODEBLOCK0@@".toList := by
  decide

/-- C17 fails on the code: for the link text `a` and the URL `x_y` the
italic pass pairs the underscore of the URL with the underscore of
`target="_blank"`, so the `href` value is no longer the escaped URL. -/
theorem C17_href_altered_by_italic_pass :
    renderMarkdown "[a](x_y)".toList
      = "<a href=\"x<em>y\" target=\"</em>blank\" rel=\"noopener noreferrer\">a</a>".toList ∧
    renderMarkdown "[a](x_y)".toList
      ≠ "<a href=\"".toList ++ escapeHtml (escapeHtml "x_y".toList) ++
          "\" target=\"_blank\" rel=\"noopener noreferrer\">".toList ++ "a".toList ++
          "</a>".toList := by
  decide

/-- C18 fails on the code: two lines with the bullet `*` are consumed by the
italic pass before the list pass sees them; the output has no list at all,
while the same lines with the bullet `-` give one list of two items. -/
theorem C18_asterisk_bullets_become_italic :
    renderMarkdown "* one\n* two".toList = "<em> one<br></em> two".toList ∧
    renderMarkdown "- one\n- two".toList
      = "<ul><br><li>one</li><br><li>two</li><br></ul>".toList := by
  decide

/-- C20 fails on the code: the text `@@CODEBLOCK0@@` has none of the
markdown syntax characters and escapes to itself, yet it is rendered as an
empty code block. -/
theorem C20_placeholder_text_rendered_as_code_block :
    escapeHtml "@@CODEBLOCK0@@".toList = "@@CODEBLOCK0@@".toList ∧
    renderMarkdown "@@CODEBLOCK0@@".toList = "<pre><code></code></pre>".toList := by
  decide

open ChromeAIChat JSRegExp

namespace ChromeAIChat

theorem safe_append (a b : List Char) (ha : Safe a) (hb : Safe b) : Safe (a ++ b) := by
  induction ha with
  | nil => exact hb
  | char c s hc _ ih => exact Safe.char c _ hc ih
  | piece t s ht _ ih =>
    rw [List.append_assoc]
    exact Safe.piece t _ ht ih

theorem safe_of_chars (s : List Char) (h : ∀ c ∈ s, isMarkupChar c = false) : Safe s := by
  induction s with
  | nil => exact Safe.nil
  | cons c cs ih =>
    exact Safe.char c cs (h c (List.mem_cons_self _ _))
      (ih (fun d hd => h d (List.mem_cons_of_mem _ hd)))

theorem safe_piece (t : List Char) (h : t ∈ entities ++ tagFragments) : Safe t := by
  have := Safe.piece t [] h Safe.nil
  rwa [List.append_nil] at this

theorem piece_head : ∀ t ∈ entities ++ tagFragments,
    (match t with | [] => false | c :: _ => isMarkupChar c) = true := by
  decide

theorem safe_tail (c : Char) (s : List Char) (h : Safe (c :: s))
    (hc : isMarkupChar c = false) : Safe s := by
  generalize hx : c :: s = x at h
  cases h with
  | nil => exact absurd hx (List.cons_ne_nil _ _)
  | char c' s' _ hs =>
    cases hx
    exact hs
  | piece t s' ht hs =>
    have hh := piece_head t ht
    cases t with
    | nil => simp at hh
    | cons d t' =>
      simp only at hh
      rw [List.cons_append] at hx
      cases hx
      rw [hc] at hh
      exact absurd hh (by decide)

theorem boundary_not_markup (d : Char) (h : isBoundary d = true) : isMarkupChar d = false := by
  unfold isBoundary at h
  simp only [Bool.and_eq_true, Bool.not_eq_true'] at h
  exact h.1

theorem boundary_not_mem (d : Char) (h : isBoundary d = true) :
    ∀ t ∈ entities ++ tagFragments, d ∉ t := by
  unfold isBoundary at h
  simp only [Bool.and_eq_true, List.all_eq_true, Bool.not_eq_true'] at h
  intro t ht hd
  have := h.2 t ht
  have h2 : t.contains d = true := List.elem_eq_true_of_mem hd
  rw [h2] at this
  exact Bool.noConfusion this

/-- A `Safe` text splits at a boundary character. -/
theorem safe_split (u v : List Char) (d : Char) (hd : isBoundary d = true)
    (h : Safe (u ++ d :: v)) : Safe u ∧ Safe v := by
  generalize hx : u ++ d :: v = x at h
  induction h generalizing u with
  | nil => exact absurd hx (by simp)
  | char c s hc hs ih =>
    cases u with
    | nil =>
      simp only [List.nil_append, List.cons.injEq] at hx
      rw [hx.2]
      exact ⟨Safe.nil, hs⟩
    | cons a u' =>
      simp only [List.cons_append, List.cons.injEq] at hx
      obtain ⟨h1, h2⟩ := ih u' hx.2
      rw [hx.1]
      exact ⟨Safe.char c u' hc h1, h2⟩
  | piece t s ht hs ih =>
    rw [List.append_eq_append_iff] at hx
    rcases hx with ⟨a', h1, h2⟩ | ⟨c', h1, h2⟩
    · -- t = u ++ a', d :: v = a' ++ s
      cases a' with
      | nil =>
        simp only [List.nil_append] at h2
        simp only [List.append_nil] at h1
        have := ih [] (by simpa using h2)
        subst h1
        exact ⟨safe_piece _ ht, this.2⟩
      | cons e a'' =>
        simp only [List.cons_append, List.cons.injEq] at h2
        exfalso
        apply boundary_not_mem d hd t ht
        rw [h1, h2.1]
        simp
    · -- u = t ++ c', s = c' ++ d :: v
      obtain ⟨h3, h4⟩ := ih c' h2.symm
      rw [h1]
      exact ⟨Safe.piece t c' ht h3, h4⟩

theorem safe_cons_boundary (d : Char) (s : List Char) (hd : isBoundary d = true)
    (h : Safe s) : Safe (d :: s) :=
  Safe.char d s (boundary_not_markup d hd) h

end ChromeAIChat

open ChromeAIChat JSRegExp

namespace JSRegExp

theorem startsWith_iff (p s : List Char) : startsWith p s = true ↔ ∃ r, s = p ++ r := by
  induction p generalizing s with
  | nil => simp [startsWith]
  | cons a p ih =>
    cases s with
    | nil => simp [startsWith]
    | cons b s =>
      simp only [startsWith, Bool.and_eq_true, decide_eq_true_eq, ih, List.cons_append,
        List.cons.injEq]
      constructor
      · rintro ⟨rfl, r, rfl⟩
        exact ⟨r, rfl, rfl⟩
      · rintro ⟨r, rfl, rfl⟩
        exact ⟨rfl, r, rfl⟩

theorem drop_length_takeWhile (p : Char → Bool) (l : List Char) :
    l.drop (l.takeWhile p).length = l.dropWhile p := by
  induction l with
  | nil => rfl
  | cons a l ih =>
    by_cases h : p a = true
    · simp [List.takeWhile_cons, List.dropWhile_cons, h, ih]
    · simp [List.takeWhile_cons, List.dropWhile_cons, h]

theorem takeWhile_split (p : Char → Bool) (l : List Char) :
    l = l.takeWhile p ++ l.drop (l.takeWhile p).length := by
  rw [drop_length_takeWhile, List.takeWhile_append_dropWhile]

theorem mem_takeWhile (p : Char → Bool) (l : List Char) (c : Char)
    (h : c ∈ l.takeWhile p) : p c = true := by
  induction l with
  | nil => simp at h
  | cons a l ih =>
    by_cases ha : p a = true
    · rw [List.takeWhile_cons, if_pos ha] at h
      rcases List.mem_cons.1 h with h | h
      · rw [h]; exact ha
      · exact ih h
    · rw [List.takeWhile_cons, if_neg ha] at h
      simp at h

theorem replaceAll_nil (m : Bool → List Char → Option (List Char × Nat)) (b : Bool) (k : Nat) :
    replaceAll m b k [] = [] := by
  cases k <;> rfl

theorem replaceAll_skip (m : Bool → List Char → Option (List Char × Nat)) (k : Nat)
    (s : List Char) (b : Bool) :
    ∃ b', replaceAll m b k s = replaceAll m b' 0 (s.drop k) := by
  induction k generalizing s b with
  | zero => exact ⟨b, rfl⟩
  | succ k ih =>
    cases s with
    | nil => exact ⟨b, by simp [replaceAll_nil]⟩
    | cons c cs =>
      obtain ⟨b', hb⟩ := ih cs (isLineTerminator c)
      exact ⟨b', by rw [List.drop_succ_cons, ← hb]; rfl⟩

theorem replaceAll_none (m : Bool → List Char → Option (List Char × Nat)) (b : Bool)
    (c : Char) (cs : List Char) (h : m b (c :: cs) = none) :
    replaceAll m b 0 (c :: cs) = c :: replaceAll m (isLineTerminator c) 0 cs := by
  simp only [replaceAll, h]

theorem replaceAll_some (m : Bool → List Char → Option (List Char × Nat)) (b : Bool)
    (c : Char) (cs : List Char) (out : List Char) (len : Nat)
    (h : m b (c :: cs) = some (out, len)) (hlen : 1 ≤ len) :
    ∃ b', replaceAll m b 0 (c :: cs) = out ++ replaceAll m b' 0 ((c :: cs).drop len) := by
  obtain ⟨b', hb⟩ := replaceAll_skip m (len - 1) cs (isLineTerminator c)
  refine ⟨b', ?_⟩
  simp only [replaceAll, h]
  rw [hb]
  obtain ⟨j, rfl⟩ : ∃ j, len = j + 1 := ⟨len - 1, by omega⟩
  simp

/-- The shape of a match of `delimMatch`. -/
theorem delimMatch_some (x : Char) (n : Nat) (op cl s out : List Char) (len : Nat)
    (h : delimMatch x n op cl s = some (out, len)) :
    ∃ body rest, s = List.replicate n x ++ (body ++ (List.replicate n x ++ rest)) ∧
      body ≠ [] ∧ (∀ c ∈ body, c ≠ x) ∧ out = op ++ body ++ cl ∧
      len = n + body.length + n := by
  unfold delimMatch at h
  split at h
  · rename_i h1
    simp only at h
    split at h
    · rename_i h2
      rw [Bool.and_eq_true] at h2
      obtain ⟨r, hr⟩ := (startsWith_iff _ _).1 h1
      have hdrop : s.drop n = r := by
        rw [hr]
        simp [List.drop_append_eq_append_drop]
      rw [hdrop] at h h2
      obtain ⟨rest, hrest⟩ := (startsWith_iff _ _).1 h2.2
      simp only [Option.some.injEq, Prod.mk.injEq] at h
      refine ⟨r.takeWhile (fun c => decide (c ≠ x)), rest, ?_, ?_, ?_, h.1.symm, h.2.symm⟩
      · rw [hr, ← hrest, ← takeWhile_split]
      · intro hc
        have := h2.1
        rw [hc] at this
        simp at this
      · intro c hc
        have := mem_takeWhile _ _ _ hc
        simpa using this
    · exact Option.noConfusion h
  · exact Option.noConfusion h

end JSRegExp

open ChromeAIChat JSRegExp

namespace ChromeAIChat

theorem char_of_toNat (c : Char) (n : Nat) (h : c.toNat = n) : c = Char.ofNat n := by
  rw [← h, Char.ofNat_toNat]

theorem lineTerminator_boundary (c : Char) (h : isLineTerminator c = true) :
    isBoundary c = true := by
  unfold isLineTerminator at h
  simp only [Bool.or_eq_true, decide_eq_true_eq] at h
  rcases h with ((h | h) | h) | h <;> (rw [char_of_toNat c _ h]; decide)

theorem space_not_markup (c : Char) (h : isSpace c = true) : isMarkupChar c = false := by
  unfold isMarkupChar dquote
  have h60 : c ≠ '<' := by rintro rfl; revert h; decide
  have h62 : c ≠ '>' := by rintro rfl; revert h; decide
  have h34 : c ≠ Char.ofNat 34 := by rintro rfl; revert h; decide
  have h38 : c ≠ '&' := by rintro rfl; revert h; decide
  simp [h60, h62, h34, h38]

theorem replaceAll_safe (m : Bool → List Char → Option (List Char × Nat))
    (hm : SafeMatcher m) :
    ∀ n s, s.length ≤ n → ∀ bol p, Safe (p ++ s) → (bol = true → Safe p ∧ Safe s) →
      Safe (p ++ replaceAll m bol 0 s) := by
  intro n
  induction n with
  | zero =>
    intro s hs bol p hp _
    have : s = [] := List.length_eq_zero.1 (Nat.le_zero.1 hs)
    subst this
    simpa [replaceAll_nil] using hp
  | succ n ih =>
    intro s hs bol p hp hb
    cases s with
    | nil => simpa [replaceAll_nil] using hp
    | cons c cs =>
      cases hmatch : m bol (c :: cs) with
      | none =>
        rw [replaceAll_none m bol c cs hmatch]
        have hp' : Safe ((p ++ [c]) ++ cs) := by simpa using hp
        have := ih cs (by simpa using hs) (isLineTerminator c) (p ++ [c]) hp' (by
          intro hlt
          have hbd := lineTerminator_boundary c hlt
          obtain ⟨h1, h2⟩ := safe_split p cs c hbd hp
          exact ⟨safe_append _ _ h1 (safe_cons_boundary c [] hbd Safe.nil), h2⟩)
        simpa using this
      | some r =>
        obtain ⟨out, len⟩ := r
        obtain ⟨hlen, hsafe⟩ := hm bol (c :: cs) out len hmatch
        obtain ⟨h1, h2⟩ := hsafe p hp hb
        obtain ⟨b', hb'⟩ := replaceAll_some m bol c cs out len hmatch hlen
        rw [hb']
        have hlen2 : ((c :: cs).drop len).length ≤ n := by
          rw [List.length_drop]
          simp only [List.length_cons] at hs ⊢
          omega
        have := ih ((c :: cs).drop len) hlen2 b' (p ++ out) (safe_append _ _ h1 h2)
          (fun _ => ⟨h1, h2⟩)
        rwa [List.append_assoc] at this

theorem replaceAll_safe_top (m : Bool → List Char → Option (List Char × Nat))
    (hm : SafeMatcher m) (s : List Char) (h : Safe s) : Safe (replaceAll m true 0 s) := by
  have := replaceAll_safe m hm s.length s (Nat.le_refl _) true [] (by simpa using h)
    (fun _ => ⟨Safe.nil, h⟩)
  simpa using this

theorem safe_drop_replicate (x : Char) (k : Nat) (t : List Char)
    (hx : isMarkupChar x = false) (h : Safe (List.replicate k x ++ t)) : Safe t := by
  induction k with
  | zero => simpa using h
  | succ k ih =>
    rw [List.replicate_succ, List.cons_append] at h
    exact ih (safe_tail x _ h hx)

theorem delimMatch_safe (x : Char) (n : Nat) (op cl : List Char) (hx : isBoundary x = true)
    (hn : 1 ≤ n) (hop : Safe op) (hcl : Safe cl) :
    SafeMatcher (fun _ => delimMatch x n op cl) := by
  intro bol s out len h
  obtain ⟨body, rest, hs, hne, _, hout, hlen⟩ := delimMatch_some x n op cl s out len h
  refine ⟨by omega, ?_⟩
  intro p hp _
  have hxm := boundary_not_markup x hx
  obtain ⟨k, rfl⟩ : ∃ k, n = k + 1 := ⟨n - 1, by omega⟩
  have hp' : Safe (p ++ x :: (List.replicate k x ++
      (body ++ (x :: (List.replicate k x ++ rest))))) := by
    rw [hs] at hp
    simpa only [List.replicate_succ, List.cons_append] using hp
  obtain ⟨h1, h2⟩ := safe_split p _ x hx hp'
  have h3 := safe_drop_replicate x k _ hxm h2
  obtain ⟨h4, h5⟩ := safe_split body _ x hx h3
  have h6 := safe_drop_replicate x k _ hxm h5
  constructor
  · rw [hout]
    exact safe_append _ _ h1 (safe_append _ _ (safe_append _ _ hop h4) hcl)
  · have : s.drop len = rest := by
      rw [hs, hlen]
      have e1 : (List.replicate (k + 1) x ++ (body ++ (List.replicate (k + 1) x ++ rest)))
          = (List.replicate (k + 1) x ++ body ++ List.replicate (k + 1) x) ++ rest := by
        simp only [List.append_assoc]
      rw [e1]
      apply List.drop_left'
      simp only [List.length_append, List.length_replicate]
    rw [this]
    exact h6

end ChromeAIChat

open ChromeAIChat JSRegExp

namespace ChromeAIChat

theorem replaceChar_append (c : Char) (r a b : List Char) :
    replaceChar c r (a ++ b) = replaceChar c r a ++ replaceChar c r b := by
  unfold replaceChar
  rw [List.flatMap_append]

theorem replaceChar_cons (c : Char) (r : List Char) (x : Char) (s : List Char) :
    replaceChar c r (x :: s) = (if x = c then r else [x]) ++ replaceChar c r s := by
  unfold replaceChar
  rw [List.flatMap_cons]

theorem replaceChar_nil (c : Char) (r : List Char) : replaceChar c r [] = [] := rfl

theorem replaceChar_of_not_mem (c : Char) (r s : List Char) (h : c ∉ s) :
    replaceChar c r s = s := by
  induction s with
  | nil => rfl
  | cons x s ih =>
    rw [replaceChar_cons, ih (fun hc => h (List.mem_cons_of_mem _ hc))]
    have : x ≠ c := fun hc => h (hc ▸ List.mem_cons_self _ _)
    simp [this]

theorem escapeHtml_append (a b : List Char) :
    escapeHtml (a ++ b) = escapeHtml a ++ escapeHtml b := by
  unfold escapeHtml
  simp only [replaceChar_append]

theorem escapeHtml_nil : escapeHtml [] = [] := rfl

theorem escapeHtml_singleton (c : Char) : escapeHtml [c] = escapeChar c := by
  unfold escapeChar
  by_cases h1 : c = '&'
  · subst h1; decide
  by_cases h2 : c = '<'
  · subst h2; decide
  by_cases h3 : c = '>'
  · subst h3; decide
  by_cases h4 : c = dquote
  · subst h4; decide
  by_cases h5 : c = apostrophe
  · subst h5; decide
  simp only [h1, h2, h3, h4, h5, if_false]
  unfold escapeHtml
  simp only [replaceChar_cons, replaceChar_nil, h1, h2, h3, h4, h5, if_false, List.append_nil]

theorem escapeHtml_cons (c : Char) (s : List Char) :
    escapeHtml (c :: s) = escapeChar c ++ escapeHtml s := by
  have : c :: s = [c] ++ s := rfl
  rw [this, escapeHtml_append, escapeHtml_singleton]

theorem escapeChar_safe (c : Char) : Safe (escapeChar c) := by
  unfold escapeChar
  split
  · exact safe_piece _ (by decide)
  split
  · exact safe_piece _ (by decide)
  split
  · exact safe_piece _ (by decide)
  split
  · exact safe_piece _ (by decide)
  split
  · exact safe_piece _ (by decide)
  rename_i h1 h2 h3 h4 _
  apply Safe.char c [] _ Safe.nil
  unfold isMarkupChar
  simp [h1, h2, h3, h4]

theorem escapeHtml_safe (s : List Char) : Safe (escapeHtml s) := by
  induction s with
  | nil => exact Safe.nil
  | cons c s ih =>
    rw [escapeHtml_cons]
    exact safe_append _ _ (escapeChar_safe c) ih

end ChromeAIChat

open ChromeAIChat JSRegExp

namespace ChromeAIChat

/-- The shape of a match of `linkMatch`. -/
theorem linkMatch_some (bol : Bool) (s out : List Char) (len : Nat)
    (h : linkMatch bol s = some (out, len)) :
    ∃ text url rest, s = '[' :: (text ++ ']' :: '(' :: (url ++ ')' :: rest)) ∧
      text ≠ [] ∧ url ≠ [] ∧ (∀ c ∈ text, c ≠ ']') ∧ (∀ c ∈ url, c ≠ ')') ∧
      out = anchor text url ∧ len = text.length + url.length + 4 := by
  unfold linkMatch at h
  split at h
  · rename_i r
    simp only at h
    split at h
    · rename_i r2 hr
      split at h
      · rename_i rest hr2
        split at h
        · rename_i hcond
          simp only [Option.some.injEq, Prod.mk.injEq] at h
          rw [Bool.and_eq_true] at hcond
          refine ⟨r.takeWhile (fun c => decide (c ≠ ']')),
            r2.takeWhile (fun c => decide (c ≠ ')')), rest, ?_, ?_, ?_, ?_, ?_, h.1.symm,
            h.2.symm⟩
          · have e1 := takeWhile_split (fun c => decide (c ≠ ']')) r
            have e2 := takeWhile_split (fun c => decide (c ≠ ')')) r2
            rw [hr] at e1
            rw [hr2] at e2
            rw [← e2, ← e1]
          · intro hc
            have := hcond.1
            rw [hc] at this
            simp at this
          · intro hc
            have := hcond.2
            rw [hc] at this
            simp at this
          · intro c hc
            simpa using mem_takeWhile _ _ _ hc
          · intro c hc
            simpa using mem_takeWhile _ _ _ hc
        · exact Option.noConfusion h
      · exact Option.noConfusion h
    · exact Option.noConfusion h
  · exact Option.noConfusion h

theorem anchor_safe (text url : List Char) (ht : Safe text) : Safe (anchor text url) := by
  unfold anchor
  have e : "\" target=\"_blank\" rel=\"noopener noreferrer\">".toList =
      "\" target=\"".toList ++ ("_blank".toList ++ "\" rel=\"noopener noreferrer\">".toList) := by
    decide
  rw [e]
  refine safe_append _ _ (safe_append _ _ (safe_append _ _ (safe_append _ _
    (safe_piece _ (by decide)) (escapeHtml_safe url)) ?_) ht) (safe_piece _ (by decide))
  exact safe_append _ _ (safe_piece _ (by decide))
    (safe_append _ _ (safe_of_chars _ (by decide)) (safe_piece _ (by decide)))

theorem linkMatch_safe : SafeMatcher linkMatch := by
  intro bol s out len h
  obtain ⟨text, url, rest, hs, _, _, _, _, hout, hlen⟩ := linkMatch_some bol s out len h
  refine ⟨by omega, ?_⟩
  intro p hp _
  rw [hs] at hp
  obtain ⟨h1, h2⟩ := safe_split p _ '[' (by decide) hp
  obtain ⟨h3, h4⟩ := safe_split text _ ']' (by decide) h2
  have h5 := safe_tail '(' _ h4 (by decide)
  obtain ⟨_, h7⟩ := safe_split url _ ')' (by decide) h5
  constructor
  · rw [hout]
    exact safe_append _ _ h1 (anchor_safe text url h3)
  · have : s.drop len = rest := by
      rw [hs, hlen]
      have e1 : '[' :: (text ++ ']' :: '(' :: (url ++ ')' :: rest)) =
          ('[' :: (text ++ ']' :: '(' :: (url ++ [')']))) ++ rest := by
        simp
      rw [e1]
      apply List.drop_left'
      simp only [List.length_cons, List.length_append, List.length_nil]
      omega
    rw [this]
    exact h7

/-- The shape of a match of `headingMatch`. -/
theorem headingMatch_some (n : Nat) (bol : Bool) (s out : List Char) (len : Nat)
    (h : headingMatch n bol s = some (out, len)) :
    ∃ ws cap rest, bol = true ∧ s = List.replicate n '#' ++ (ws ++ (cap ++ rest)) ∧
      (∀ c ∈ ws, isSpace c = true) ∧ (∀ c ∈ cap, isLineTerminator c = false) ∧
      (rest = [] ∨ ∃ d rest', rest = d :: rest' ∧ isLineTerminator d = true) ∧
      out = "<h".toList ++ natToString n ++ ">".toList ++ cap ++
          "</h".toList ++ natToString n ++ ">".toList ∧
      len = n + ws.length + cap.length := by
  unfold headingMatch at h
  split at h
  · rename_i hc
    rw [Bool.and_eq_true] at hc
    obtain ⟨r, hr⟩ := (startsWith_iff _ _).1 hc.2
    have hdrop : s.drop n = r := by
      rw [hr]
      simp [List.drop_append_eq_append_drop]
    simp only [hdrop, Option.some.injEq, Prod.mk.injEq] at h
    have e1 := takeWhile_split isSpace r
    have e2 := takeWhile_split (fun c => !isLineTerminator c) (r.drop (r.takeWhile isSpace).length)
    refine ⟨r.takeWhile isSpace,
      (r.drop (r.takeWhile isSpace).length).takeWhile (fun c => !isLineTerminator c),
      (r.drop (r.takeWhile isSpace).length).drop
        ((r.drop (r.takeWhile isSpace).length).takeWhile (fun c => !isLineTerminator c)).length,
      hc.1, ?_, ?_, ?_, ?_, h.1.symm, h.2.symm⟩
    · rw [hr, ← e2, ← e1]
    · intro c hc
      exact mem_takeWhile _ _ _ hc
    · intro c hc
      simpa using mem_takeWhile _ _ _ hc
    · rw [drop_length_takeWhile]
      cases hd : List.dropWhile (fun c => !isLineTerminator c)
          (r.drop (r.takeWhile isSpace).length) with
      | nil => exact Or.inl rfl
      | cons d rest' =>
        right
        refine ⟨d, rest', rfl, ?_⟩
        have := List.head_dropWhile_not (fun c => !isLineTerminator c)
          (r.drop (r.takeWhile isSpace).length) (by rw [hd]; simp)
        simp only [hd, List.head_cons] at this
        simpa using this
  · exact Option.noConfusion h

end ChromeAIChat

open ChromeAIChat JSRegExp

namespace ChromeAIChat

theorem safe_drop_chars (ws t : List Char) (hws : ∀ c ∈ ws, isMarkupChar c = false)
    (h : Safe (ws ++ t)) : Safe t := by
  induction ws with
  | nil => simpa using h
  | cons c ws ih =>
    rw [List.cons_append] at h
    exact ih (fun d hd => hws d (List.mem_cons_of_mem _ hd))
      (safe_tail c _ h (hws c (List.mem_cons_self _ _)))

theorem heading_tags (n : Nat) (h1 : 1 ≤ n) (h6 : n ≤ 6) :
    ("<h".toList ++ natToString n ++ ">".toList) ∈ entities ++ tagFragments ∧
    ("</h".toList ++ natToString n ++ ">".toList) ∈ entities ++ tagFragments := by
  interval_cases n <;> decide

theorem headingMatch_safe (n : Nat) (h1 : 1 ≤ n) (h6 : n ≤ 6) :
    SafeMatcher (headingMatch n) := by
  intro bol s out len h
  obtain ⟨ws, cap, rest, hbol, hs, hws, _, hrest, hout, hlen⟩ :=
    headingMatch_some n bol s out len h
  refine ⟨by omega, ?_⟩
  intro p _ hb
  obtain ⟨hp, hsafe⟩ := hb hbol
  rw [hs] at hsafe
  have h2 := safe_drop_replicate '#' n _ (by decide) hsafe
  have h3 := safe_drop_chars ws _ (fun c hc => space_not_markup c (hws c hc)) h2
  have h4 : Safe cap ∧ Safe rest := by
    rcases hrest with hr | ⟨d, rest', hr, hd⟩
    · subst hr
      rw [List.append_nil] at h3
      exact ⟨h3, Safe.nil⟩
    · subst hr
      have hbd := lineTerminator_boundary d hd
      obtain ⟨h5, h6⟩ := safe_split cap rest' d hbd h3
      exact ⟨h5, safe_cons_boundary d rest' hbd h6⟩
  obtain ⟨ht1, ht2⟩ := heading_tags n h1 h6
  constructor
  · rw [hout]
    have e : "<h".toList ++ natToString n ++ ">".toList ++ cap ++ "</h".toList ++
        natToString n ++ ">".toList =
        ("<h".toList ++ natToString n ++ ">".toList) ++ (cap ++
          ("</h".toList ++ natToString n ++ ">".toList)) := by
      simp only [List.append_assoc]
    rw [e]
    exact safe_append _ _ hp (safe_append _ _ (safe_piece _ ht1)
      (safe_append _ _ h4.1 (safe_piece _ ht2)))
  · have : s.drop len = rest := by
      rw [hs, hlen]
      have e1 : List.replicate n '#' ++ (ws ++ (cap ++ rest)) =
          (List.replicate n '#' ++ ws ++ cap) ++ rest := by
        simp only [List.append_assoc]
      rw [e1]
      apply List.drop_left'
      simp only [List.length_append, List.length_replicate]
    rw [this]
    exact h4.2

/-- The shape of a match of `restoreMatch`. -/
theorem restoreMatch_some (codeBlocks : List (List Char)) (bol : Bool) (s out : List Char)
    (len : Nat) (h : restoreMatch codeBlocks bol s = some (out, len)) :
    ∃ idx rest, s = "@@CODEBLOCK".toList ++ (idx ++ ("@@".toList ++ rest)) ∧ idx ≠ [] ∧
      (∀ c ∈ idx, isDigit c = true) ∧
      out = "<pre><code>".toList ++ codeBlocks.getD (parseNat idx) [] ++
        "</code></pre>".toList ∧
      len = 11 + idx.length + 2 := by
  unfold restoreMatch at h
  split at h
  · rename_i h1
    obtain ⟨r, hr⟩ := (startsWith_iff _ _).1 h1
    have hdrop : s.drop 11 = r := by
      rw [hr]
      rfl
    simp only [hdrop] at h
    split at h
    · rename_i h2
      rw [Bool.and_eq_true] at h2
      obtain ⟨rest, hrest⟩ := (startsWith_iff _ _).1 h2.2
      simp only [Option.some.injEq, Prod.mk.injEq] at h
      refine ⟨r.takeWhile isDigit, rest, ?_, ?_, ?_, h.1.symm, h.2.symm⟩
      · rw [hr, ← hrest, ← takeWhile_split]
      · intro hc
        have := h2.1
        rw [hc] at this
        simp at this
      · intro c hc
        exact mem_takeWhile _ _ _ hc
    · exact Option.noConfusion h
  · exact Option.noConfusion h

theorem getD_safe (blocks : List (List Char)) (i : Nat) (h : ∀ b ∈ blocks, Safe b) :
    Safe (blocks.getD i []) := by
  rw [List.getD_eq_getElem?_getD]
  cases hi : blocks[i]? with
  | none => exact Safe.nil
  | some b => exact h b (List.getElem?_mem hi)

theorem restoreMatch_safe (codeBlocks : List (List Char)) (hb : ∀ b ∈ codeBlocks, Safe b) :
    SafeMatcher (restoreMatch codeBlocks) := by
  intro bol s out len h
  obtain ⟨idx, rest, hs, _, _, hout, hlen⟩ := restoreMatch_some codeBlocks bol s out len h
  refine ⟨by omega, ?_⟩
  intro p hp _
  have e1 : p ++ s = p ++ '@' :: ("@CODEBLOCK".toList ++ (idx ++ ("@@".toList ++ rest))) := by
    rw [hs]; rfl
  have e2 : p ++ s = (p ++ "@@CODEBLOCK".toList ++ idx ++ "@".toList) ++ '@' :: rest := by
    rw [hs]
    simp only [List.append_assoc]
    rfl
  have h1 := (safe_split p _ '@' (by decide) (e1 ▸ hp)).1
  have h2 := (safe_split _ rest '@' (by decide) (e2 ▸ hp)).2
  constructor
  · rw [hout]
    have e : "<pre><code>".toList ++ codeBlocks.getD (parseNat idx) [] ++
        "</code></pre>".toList =
        "<pre>".toList ++ ("<code>".toList ++ (codeBlocks.getD (parseNat idx) [] ++
          ("</code>".toList ++ "</pre>".toList))) := by
      simp only [List.append_assoc]
      rfl
    rw [e]
    exact safe_append _ _ h1 (safe_append _ _ (safe_piece _ (by decide))
      (safe_append _ _ (safe_piece _ (by decide)) (safe_append _ _ (getD_safe _ _ hb)
        (safe_append _ _ (safe_piece _ (by decide)) (safe_piece _ (by decide))))))
  · have : s.drop len = rest := by
      rw [hs, hlen]
      have e3 : "@@CODEBLOCK".toList ++ (idx ++ ("@@".toList ++ rest)) =
          ("@@CODEBLOCK".toList ++ idx ++ "@@".toList) ++ rest := by
        simp only [List.append_assoc]
      rw [e3]
      apply List.drop_left'
      simp only [List.length_append]
      rfl
    rw [this]
    exact h2

end ChromeAIChat

open ChromeAIChat JSRegExp

namespace ChromeAIChat

/-- The shape of a result of `untilFence`. -/
theorem untilFence_some (s body : List Char) (len : Nat)
    (h : untilFence s = some (body, len)) :
    ∃ rest, s = body ++ (fence ++ rest) ∧ len = body.length + 3 := by
  induction s generalizing body len with
  | nil => exact Option.noConfusion h
  | cons c cs ih =>
    unfold untilFence at h
    split at h
    · rename_i hf
      simp only [Option.some.injEq, Prod.mk.injEq] at h
      obtain ⟨r, hr⟩ := (startsWith_iff _ _).1 hf
      exact ⟨r, by rw [← h.1, hr]; rfl, by rw [← h.1, ← h.2]; rfl⟩
    · split at h
      · rename_i body' len' hu
        simp only [Option.some.injEq, Prod.mk.injEq] at h
        obtain ⟨rest, h1, h2⟩ := ih body' len' hu
        exact ⟨rest, by rw [← h.1, h1]; rfl, by rw [← h.1, ← h.2, h2]; rfl⟩
      · exact Option.noConfusion h

theorem extractText_nil (count k : Nat) : extractText count k [] = [] := by
  cases k <;> rfl

theorem extractText_skip (count k : Nat) (s : List Char) :
    extractText count k s = extractText count 0 (s.drop k) := by
  induction k generalizing s with
  | zero => rfl
  | succ k ih =>
    cases s with
    | nil => simp [extractText_nil]
    | cons c cs =>
      rw [List.drop_succ_cons, ← ih cs]
      rfl

theorem extractBlocks_nil (k : Nat) : extractBlocks k [] = [] := by
  cases k <;> rfl

theorem extractBlocks_skip (k : Nat) (s : List Char) :
    extractBlocks k s = extractBlocks 0 (s.drop k) := by
  induction k generalizing s with
  | zero => rfl
  | succ k ih =>
    cases s with
    | nil => simp [extractBlocks_nil]
    | cons c cs =>
      rw [List.drop_succ_cons, ← ih cs]
      rfl

/-- One step of the fence pass at the head of the text: either a whole
fenced block is replaced by its placeholder and its body recorded, or the
head character is copied. -/
theorem fence_step (c : Char) (cs : List Char) :
    (∃ body rest, c :: cs = fence ++ (body ++ (fence ++ rest)) ∧
      (∀ count, extractText count 0 (c :: cs) =
        placeholder count ++ extractText (count + 1) 0 rest) ∧
      extractBlocks 0 (c :: cs) = body :: extractBlocks 0 rest) ∨
    ((∀ count, extractText count 0 (c :: cs) = c :: extractText count 0 cs) ∧
      extractBlocks 0 (c :: cs) = extractBlocks 0 cs) := by
  by_cases hf : startsWith fence (c :: cs) = true
  · cases hu : untilFence (List.drop 2 cs) with
    | none =>
      right
      refine ⟨?_, ?_⟩
      · intro count
        simp only [extractText, hf, if_true, hu]
      · simp only [extractBlocks, hf, if_true, hu]
    | some r =>
      obtain ⟨body, len⟩ := r
      obtain ⟨r0, hr0⟩ := (startsWith_iff _ _).1 hf
      have hcs : cs = [backtick, backtick] ++ r0 := by
        have : c :: cs = backtick :: ([backtick, backtick] ++ r0) := hr0
        exact (List.cons.inj this).2
      have hd : List.drop 2 cs = r0 := by rw [hcs]; rfl
      obtain ⟨rest, h1, h2⟩ := untilFence_some _ body len (hd ▸ hu)
      have hdrop : List.drop (len + 2) cs = rest := by
        rw [hcs, h1, h2]
        have e : [backtick, backtick] ++ (body ++ (fence ++ rest)) =
            ([backtick, backtick] ++ body ++ fence) ++ rest := by
          simp only [List.append_assoc]
        rw [e]
        apply List.drop_left'
        simp only [List.length_append, List.length_cons, List.length_nil, fence]
        omega
      left
      refine ⟨body, rest, by rw [hr0, h1], ?_, ?_⟩
      · intro count
        simp only [extractText, hf, if_true, hu]
        rw [extractText_skip, hdrop]
      · simp only [extractBlocks, hf, if_true, hu]
        rw [extractBlocks_skip, hdrop]
  · right
    refine ⟨?_, ?_⟩
    · intro count
      simp only [extractText, hf, Bool.false_eq_true, if_false]
    · simp only [extractBlocks, hf, Bool.false_eq_true, if_false]

theorem digitChar_not_markup (d : Nat) : isMarkupChar (Nat.digitChar d) = false := by
  by_cases h : d < 16
  · interval_cases d <;> decide
  · have : Nat.digitChar d = '*' := by
      unfold Nat.digitChar
      iterate 16 rw [if_neg (by omega)]
    rw [this]
    decide

theorem toDigitsCore_not_markup (fuel n : Nat) (acc : List Char)
    (hacc : ∀ c ∈ acc, isMarkupChar c = false) :
    ∀ c ∈ Nat.toDigitsCore 10 fuel n acc, isMarkupChar c = false := by
  induction fuel generalizing n acc with
  | zero => simpa [Nat.toDigitsCore] using hacc
  | succ fuel ih =>
    unfold Nat.toDigitsCore
    simp only
    split
    · intro c hc
      rcases List.mem_cons.1 hc with h | h
      · rw [h]; exact digitChar_not_markup _
      · exact hacc c h
    · apply ih
      intro c hc
      rcases List.mem_cons.1 hc with h | h
      · rw [h]; exact digitChar_not_markup _
      · exact hacc c h

theorem placeholder_safe (n : Nat) : Safe (placeholder n) := by
  unfold placeholder natToString Nat.toDigits
  apply safe_of_chars
  intro c hc
  simp only [List.mem_append] at hc
  rcases hc with (hc | hc) | hc
  · revert c; decide
  · exact toDigitsCore_not_markup _ _ [] (by simp) c hc
  · revert c; decide

theorem fence_split (p body rest : List Char)
    (h : Safe (p ++ (fence ++ (body ++ (fence ++ rest))))) :
    Safe p ∧ Safe body ∧ Safe rest := by
  have hb : isBoundary backtick = true := by decide
  have e1 : p ++ (fence ++ (body ++ (fence ++ rest))) =
      p ++ backtick :: ([backtick, backtick] ++ (body ++ (fence ++ rest))) := rfl
  have e2 : p ++ (fence ++ (body ++ (fence ++ rest))) =
      (p ++ [backtick, backtick]) ++ backtick :: (body ++ (fence ++ rest)) := by
    simp [fence]
  have h1 := (safe_split p _ backtick hb (e1 ▸ h)).1
  have h2 := (safe_split _ _ backtick hb (e2 ▸ h)).2
  have e3 : body ++ (fence ++ rest) = body ++ backtick :: ([backtick, backtick] ++ rest) := rfl
  have e4 : body ++ (fence ++ rest) = (body ++ [backtick, backtick]) ++ backtick :: rest := by
    simp [fence]
  have h3 := (safe_split body _ backtick hb (e3 ▸ h2)).1
  have h4 := (safe_split _ rest backtick hb (e4 ▸ h2)).2
  exact ⟨h1, h3, h4⟩

theorem length_fence_block (c : Char) (cs body rest : List Char)
    (h : c :: cs = fence ++ (body ++ (fence ++ rest))) : rest.length < (c :: cs).length := by
  rw [h]
  simp only [List.length_append, fence, List.length_cons, List.length_nil]
  omega

theorem extractText_safe : ∀ n s, s.length ≤ n → ∀ count p, Safe (p ++ s) →
    Safe (p ++ extractText count 0 s) := by
  intro n
  induction n with
  | zero =>
    intro s hs count p hp
    have : s = [] := List.length_eq_zero.1 (Nat.le_zero.1 hs)
    subst this
    simpa [extractText_nil] using hp
  | succ n ih =>
    intro s hs count p hp
    cases s with
    | nil => simpa [extractText_nil] using hp
    | cons c cs =>
      rcases fence_step c cs with ⟨body, rest, hshape, htext, _⟩ | ⟨htext, _⟩
      · rw [htext count]
        rw [hshape] at hp
        obtain ⟨h1, _, h3⟩ := fence_split p body rest hp
        have hlen := length_fence_block c cs body rest hshape
        have := ih rest (by omega) (count + 1) (p ++ placeholder count)
          (safe_append _ _ (safe_append _ _ h1 (placeholder_safe count)) h3)
        rwa [List.append_assoc] at this
      · rw [htext count]
        have := ih cs (by simpa using hs) count (p ++ [c]) (by simpa using hp)
        simpa using this

theorem extractBlocks_safe : ∀ n s, s.length ≤ n → ∀ p, Safe (p ++ s) →
    ∀ b ∈ extractBlocks 0 s, Safe b := by
  intro n
  induction n with
  | zero =>
    intro s hs p _ b hb
    have : s = [] := List.length_eq_zero.1 (Nat.le_zero.1 hs)
    subst this
    simp [extractBlocks_nil] at hb
  | succ n ih =>
    intro s hs p hp b hb
    cases s with
    | nil => simp [extractBlocks_nil] at hb
    | cons c cs =>
      rcases fence_step c cs with ⟨body, rest, hshape, _, hblocks⟩ | ⟨_, hblocks⟩
      · rw [hblocks] at hb
        rw [hshape] at hp
        obtain ⟨_, h2, h3⟩ := fence_split p body rest hp
        have hlen := length_fence_block c cs body rest hshape
        rcases List.mem_cons.1 hb with hb | hb
        · rw [hb]; exact h2
        · exact ih rest (by omega) [] (by simpa using h3) b hb
      · rw [hblocks] at hb
        exact ih cs (by simpa using hs) (p ++ [c]) (by simpa using hp) b hb

end ChromeAIChat

open ChromeAIChat JSRegExp

namespace ChromeAIChat

theorem splitLines_ne_nil (s : List Char) : splitLines s ≠ [] := by
  cases s with
  | nil => simp [splitLines]
  | cons c cs =>
    unfold splitLines
    split
    · simp
    · split <;> simp

theorem joinLines_cons_cons (l l2 : List Char) (ls : List (List Char)) :
    joinLines (l :: l2 :: ls) = l ++ newline :: joinLines (l2 :: ls) := rfl

theorem joinLines_splitLines (s : List Char) : joinLines (splitLines s) = s := by
  induction s with
  | nil => rfl
  | cons c cs ih =>
    unfold splitLines
    split
    · rename_i hc
      cases hsp : splitLines cs with
      | nil => exact absurd hsp (splitLines_ne_nil cs)
      | cons l ls =>
        rw [joinLines_cons_cons, ← hsp, ih, hc]
        rfl
    · cases hsp : splitLines cs with
      | nil => exact absurd hsp (splitLines_ne_nil cs)
      | cons l ls =>
        simp only
        rw [hsp] at ih
        cases ls with
        | nil =>
          simp only [joinLines] at ih ⊢
          rw [ih]
        | cons l2 ls2 =>
          rw [joinLines_cons_cons] at ih ⊢
          rw [List.cons_append, ih]

theorem safe_lines (ls : List (List Char)) (h : Safe (joinLines ls)) : ∀ l ∈ ls, Safe l := by
  induction ls with
  | nil => intro l hl; simp at hl
  | cons l rest ih =>
    cases rest with
    | nil =>
      intro l' hl'
      simp only [List.mem_singleton] at hl'
      rw [hl']
      exact h
    | cons l2 ls2 =>
      rw [joinLines_cons_cons] at h
      obtain ⟨h1, h2⟩ := safe_split l _ newline (by decide) h
      intro l' hl'
      rcases List.mem_cons.1 hl' with hl' | hl'
      · rw [hl']; exact h1
      · exact ih h2 l' hl'

theorem joinLines_safe (ls : List (List Char)) (h : ∀ l ∈ ls, Safe l) : Safe (joinLines ls) := by
  induction ls with
  | nil => exact Safe.nil
  | cons l rest ih =>
    cases rest with
    | nil => exact h l (List.mem_cons_self _ _)
    | cons l2 ls2 =>
      rw [joinLines_cons_cons]
      exact safe_append _ _ (h l (List.mem_cons_self _ _))
        (safe_cons_boundary newline _ (by decide)
          (ih (fun x hx => h x (List.mem_cons_of_mem _ hx))))

theorem safe_dropWhile_space (s : List Char) (h : Safe s) : Safe (s.dropWhile isSpace) := by
  have e := List.takeWhile_append_dropWhile isSpace s
  rw [← e] at h
  exact safe_drop_chars _ _ (fun c hc => space_not_markup c (mem_takeWhile _ _ _ hc)) h

theorem stripBullet_safe (line item : List Char) (h : stripBullet line = some item)
    (hs : Safe line) : Safe item := by
  unfold stripBullet at h
  have h0 := safe_dropWhile_space line hs
  split at h
  · rename_i c r hd
    rw [hd] at h0
    split at h
    · rename_i hc
      have hcm : isMarkupChar c = false := by
        rcases hc with hc | hc <;> (rw [hc]; decide)
      have h1 := safe_tail c r h0 hcm
      split at h
      · split at h
        · simp only [Option.some.injEq] at h
          rw [← h]
          exact safe_dropWhile_space _ h1
        · exact Option.noConfusion h
      · exact Option.noConfusion h
    · exact Option.noConfusion h
  · exact Option.noConfusion h

theorem listLoop_safe (lines : List (List Char)) (h : ∀ l ∈ lines, Safe l) (inList : Bool) :
    ∀ l ∈ listLoop inList lines, Safe l := by
  induction lines generalizing inList with
  | nil =>
    intro l hl
    unfold listLoop at hl
    split at hl
    · simp only [List.mem_singleton] at hl
      rw [hl]
      exact safe_piece _ (by decide)
    · simp at hl
  | cons line rest ih =>
    have hrest : ∀ l ∈ rest, Safe l := fun x hx => h x (List.mem_cons_of_mem _ hx)
    have hline := h line (List.mem_cons_self _ _)
    intro l hl
    unfold listLoop at hl
    split at hl
    · rename_i item hitem
      have hi := stripBullet_safe line item hitem hline
      rw [List.mem_append, List.mem_cons] at hl
      rcases hl with hl | hl | hl
      · split at hl
        · simp at hl
        · simp only [List.mem_singleton] at hl
          rw [hl]
          exact safe_piece _ (by decide)
      · rw [hl]
        exact safe_append _ _ (safe_append _ _ (safe_piece _ (by decide)) hi)
          (safe_piece _ (by decide))
      · exact ih hrest true l hl
    · rw [List.mem_append, List.mem_cons] at hl
      rcases hl with hl | hl | hl
      · split at hl
        · simp only [List.mem_singleton] at hl
          rw [hl]
          exact safe_piece _ (by decide)
        · simp at hl
      · rw [hl]; exact hline
      · exact ih hrest false l hl

theorem lists_safe (s : List Char) (h : Safe s) : Safe (lists s) := by
  unfold lists
  apply joinLines_safe
  apply listLoop_safe
  apply safe_lines
  rw [joinLines_splitLines]
  exact h

theorem lineBreaks_safe (s : List Char) (h : Safe s) :
    Safe (replaceChar newline "<br>".toList s) := by
  induction h with
  | nil => exact Safe.nil
  | char c s hc _ ih =>
    rw [replaceChar_cons]
    split
    · exact safe_append _ _ (safe_piece _ (by decide)) ih
    · exact Safe.char c _ hc ih
  | piece t s ht _ ih =>
    rw [replaceChar_append,
      replaceChar_of_not_mem newline _ t (boundary_not_mem newline (by decide) t ht)]
    exact Safe.piece t _ ht ih

theorem headings_safe (s : List Char) (h : Safe s) : Safe (headings s) := by
  unfold headings
  simp only
  exact replaceAll_safe_top _ (headingMatch_safe 1 (by omega) (by omega)) _
    (replaceAll_safe_top _ (headingMatch_safe 2 (by omega) (by omega)) _
    (replaceAll_safe_top _ (headingMatch_safe 3 (by omega) (by omega)) _
    (replaceAll_safe_top _ (headingMatch_safe 4 (by omega) (by omega)) _
    (replaceAll_safe_top _ (headingMatch_safe 5 (by omega) (by omega)) _
    (replaceAll_safe_top _ (headingMatch_safe 6 (by omega) (by omega)) _ h)))))

theorem emphasis_safe (s : List Char) (h : Safe s) : Safe (emphasis s) := by
  unfold emphasis
  simp only
  have hs : isBoundary '*' = true := by decide
  have hu : isBoundary '_' = true := by decide
  exact replaceAll_safe_top _ (delimMatch_safe '_' 1 _ _ hu (by omega)
      (safe_piece _ (by decide)) (safe_piece _ (by decide))) _
    (replaceAll_safe_top _ (delimMatch_safe '*' 1 _ _ hs (by omega)
      (safe_piece _ (by decide)) (safe_piece _ (by decide))) _
    (replaceAll_safe_top _ (delimMatch_safe '_' 2 _ _ hu (by omega)
      (safe_piece _ (by decide)) (safe_piece _ (by decide))) _
    (replaceAll_safe_top _ (delimMatch_safe '*' 2 _ _ hs (by omega)
      (safe_piece _ (by decide)) (safe_piece _ (by decide))) _ h)))

theorem inlineCode_safe (s : List Char) (h : Safe s) :
    Safe (replaceAll inlineCodeMatch true 0 s) :=
  replaceAll_safe_top _ (delimMatch_safe backtick 1 _ _ (by decide) (by omega)
    (safe_piece _ (by decide)) (safe_piece _ (by decide))) _ h

theorem renderMarkdown_safe (md : JSString) : Safe (renderMarkdown md) := by
  unfold renderMarkdown
  split
  · exact Safe.nil
  · simp only
    have h0 := escapeHtml_safe md
    have hblocks := extractBlocks_safe _ (escapeHtml md) (Nat.le_refl _) [] (by simpa using h0)
    have h1 : Safe (extractText 0 0 (escapeHtml md)) := by
      have := extractText_safe _ (escapeHtml md) (Nat.le_refl _) 0 [] (by simpa using h0)
      simpa using this
    exact replaceAll_safe_top _ (restoreMatch_safe _ hblocks) _
      (lineBreaks_safe _ (lists_safe _ (emphasis_safe _ (headings_safe _
        (replaceAll_safe_top _ linkMatch_safe _ (inlineCode_safe _ h1))))))

theorem safe_pieces (s : List Char) (h : Safe s) :
    ∃ pieces : List (List Char), s = pieces.flatten ∧
      ∀ p ∈ pieces, (∃ c, p = [c] ∧ isMarkupChar c = false) ∨ p ∈ entities ∨
        p ∈ tagFragments := by
  induction h with
  | nil => exact ⟨[], rfl, fun p hp => by simp at hp⟩
  | char c s hc _ ih =>
    obtain ⟨ps, h1, h2⟩ := ih
    refine ⟨[c] :: ps, by rw [List.flatten_cons, ← h1]; rfl, ?_⟩
    intro p hp
    rcases List.mem_cons.1 hp with hp | hp
    · exact Or.inl ⟨c, hp, hc⟩
    · exact h2 p hp
  | piece t s ht _ ih =>
    obtain ⟨ps, h1, h2⟩ := ih
    refine ⟨t :: ps, by rw [List.flatten_cons, ← h1], ?_⟩
    intro p hp
    rcases List.mem_cons.1 hp with hp | hp
    · rw [hp]
      exact Or.inr (List.mem_append.1 ht)
    · exact h2 p hp

end ChromeAIChat

/-- C1 (escaping safety).  For every input, the output of `renderMarkdown`
is a concatenation of pieces, each of which is a single character other than
`<`, `>`, `"` and `&`, one of the five entities of `escapeHtml`, or one of
the fixed fragments of the tags the renderer emits.  So every `<`, `>` and
`"` of the output lies in a tag fragment, every `&` begins an entity, and no
character of the input appears as a raw markup character. -/
theorem C1_escaping_safety (md : JSString) :
    ∃ pieces : List (List Char), renderMarkdown md = pieces.flatten ∧
      ∀ p ∈ pieces, (∃ c, p = [c] ∧ isMarkupChar c = false) ∨ p ∈ entities ∨
        p ∈ tagFragments :=
  safe_pieces _ (renderMarkdown_safe md)

open ChromeAIChat JSRegExp

namespace ChromeAIChat

theorem skip_segment (u v A T : List Char) (h : u ++ (fence ++ v) = A ++ T)
    (hl : A.length ≤ u.length) : ∃ u2, u = A ++ u2 ∧ u2 ++ (fence ++ v) = T := by
  rw [List.append_eq_append_iff] at h
  rcases h with ⟨a', h1, h2⟩ | ⟨c', h1, h2⟩
  · have : a' = [] := by
      rw [h1, List.length_append] at hl
      exact List.length_eq_zero.1 (by omega)
    subst this
    rw [List.append_nil] at h1
    rw [List.nil_append] at h2
    exact ⟨[], by rw [h1, List.append_nil], by rw [List.nil_append, h2]⟩
  · exact ⟨c', h1, h2.symm⟩

theorem no_backtick_segment (u v R T : List Char) (h : u ++ (fence ++ v) = R ++ T)
    (hR : backtick ∉ R) : R.length ≤ u.length := by
  rw [List.append_eq_append_iff] at h
  rcases h with ⟨a', h1, h2⟩ | ⟨c', h1, _⟩
  · cases a' with
    | nil => rw [h1, List.append_nil]
    | cons a a'' =>
      exfalso
      apply hR
      have : a = backtick := by
        have h3 : backtick :: ([backtick, backtick] ++ v) = a :: (a'' ++ T) := h2
        exact (List.cons.inj h3).1.symm
      rw [h1, this]
      simp
  · rw [h1, List.length_append]
    omega

theorem cover (u v B T : List Char) (h : u ++ (fence ++ v) = B ++ T)
    (hT : ∀ t, T ≠ backtick :: t) :
    B.length ≤ u.length ∨ ∃ b1 b2, B = b1 ++ (fence ++ b2) := by
  rw [List.append_eq_append_iff] at h
  rcases h with ⟨a', h1, h2⟩ | ⟨c', h1, _⟩
  · have h3 : backtick :: backtick :: backtick :: v = a' ++ T := h2
    cases a' with
    | nil =>
      left
      rw [h1, List.append_nil]
    | cons a a1 =>
      cases a1 with
      | nil =>
        exfalso
        simp only [List.cons_append, List.nil_append, List.cons.injEq] at h3
        exact hT _ h3.2.symm
      | cons b a2 =>
        cases a2 with
        | nil =>
          exfalso
          simp only [List.cons_append, List.nil_append, List.cons.injEq] at h3
          exact hT _ h3.2.2.symm
        | cons c a3 =>
          right
          simp only [List.cons_append, List.cons.injEq] at h3
          refine ⟨u, a3, ?_⟩
          rw [h1, ← h3.1, ← h3.2.1, ← h3.2.2.1]
          rfl
  · left
    rw [h1, List.length_append]
    omega

theorem replaceAll_keeps_fence (m : Bool → List Char → Option (List Char × Nat))
    (hm : FenceTransparent m) :
    ∀ n u, u.length ≤ n → ∀ bol v,
      ∃ a b, replaceAll m bol 0 (u ++ (fence ++ v)) = a ++ (fence ++ b) := by
  intro n
  induction n with
  | zero =>
    intro u hu bol v
    have : u = [] := List.length_eq_zero.1 (Nat.le_zero.1 hu)
    subst this
    refine ⟨[], replaceAll m (isLineTerminator backtick) 0 v, ?_⟩
    show replaceAll m bol 0 (backtick :: backtick :: backtick :: v) = _
    rw [replaceAll_none m _ _ _ (hm.1 _ _), replaceAll_none m _ _ _ (hm.1 _ _),
      replaceAll_none m _ _ _ (hm.1 _ _)]
    rfl
  | succ n ih =>
    intro u hu bol v
    cases u with
    | nil => exact ih [] (Nat.zero_le _) bol v
    | cons c cs =>
      cases hmatch : m bol (c :: cs ++ (fence ++ v)) with
      | none =>
        obtain ⟨a, b, hab⟩ := ih cs (by simpa using hu) (isLineTerminator c) v
        refine ⟨c :: a, b, ?_⟩
        rw [List.cons_append] at hmatch ⊢
        rw [replaceAll_none m _ _ _ hmatch, hab]
        rfl
      | some r =>
        obtain ⟨out, len⟩ := r
        obtain ⟨hlen, hcase⟩ := hm.2 bol (c :: cs) v out len hmatch
        rw [List.cons_append] at hmatch
        obtain ⟨b', hb'⟩ := replaceAll_some m bol c _ out len hmatch hlen
        rw [List.cons_append, hb']
        rcases hcase with hle | ⟨o1, o2, ho⟩
        · have hd : (c :: (cs ++ (fence ++ v))).drop len =
              (c :: cs).drop len ++ (fence ++ v) := by
            rw [← List.cons_append, List.drop_append_of_le_length hle]
          rw [hd]
          have hl2 : ((c :: cs).drop len).length ≤ n := by
            rw [List.length_drop]
            simp only [List.length_cons] at hu ⊢
            omega
          obtain ⟨a, b, hab⟩ := ih _ hl2 b' v
          exact ⟨out ++ a, b, by rw [hab, List.append_assoc]⟩
        · exact ⟨o1, o2 ++ replaceAll m b' 0 ((c :: (cs ++ (fence ++ v))).drop len),
            by rw [ho]; simp only [List.append_assoc]⟩

theorem replaceAll_fence (m : Bool → List Char → Option (List Char × Nat))
    (hm : FenceTransparent m) (s : List Char) (h : fence <:+: s) :
    fence <:+: replaceAll m true 0 s := by
  obtain ⟨u, v, huv⟩ := h
  obtain ⟨a, b, hab⟩ := replaceAll_keeps_fence m hm u.length u (Nat.le_refl _) true v
  refine ⟨a, b, ?_⟩
  rw [← huv]
  simp only [List.append_assoc]
  exact hab.symm

end ChromeAIChat

open ChromeAIChat JSRegExp

namespace ChromeAIChat

theorem startsWith_cons_ne (x c : Char) (p t : List Char) (h : x ≠ c) :
    startsWith (x :: p) (c :: t) = false := by
  simp [startsWith, h]

theorem not_mem_replicate (x : Char) (n : Nat) (h : x ≠ backtick) :
    backtick ∉ List.replicate n x := by
  intro hc
  exact h (List.eq_of_mem_replicate hc).symm

theorem delimMatch_transparent (x : Char) (n : Nat) (op cl : List Char)
    (hx : x ≠ backtick) (hn : 1 ≤ n) : FenceTransparent (fun _ => delimMatch x n op cl) := by
  obtain ⟨k, rfl⟩ : ∃ k, n = k + 1 := ⟨n - 1, by omega⟩
  constructor
  · intro bol t
    show delimMatch x (k + 1) op cl (backtick :: t) = none
    unfold delimMatch
    rw [List.replicate_succ, startsWith_cons_ne x backtick _ _ hx]
    rfl
  · intro bol u v out len h
    obtain ⟨body, rest, hs, _, _, hout, hlen⟩ := delimMatch_some x (k + 1) op cl _ out len h
    refine ⟨by omega, ?_⟩
    have hnb := not_mem_replicate x (k + 1) hx
    have h1 := no_backtick_segment u v _ _ hs hnb
    obtain ⟨u1, hu1, hs1⟩ := skip_segment u v _ _ hs h1
    have hT : ∀ t, List.replicate (k + 1) x ++ rest ≠ backtick :: t := by
      intro t ht
      rw [List.replicate_succ, List.cons_append] at ht
      exact hx (List.cons.inj ht).1
    rcases cover u1 v body _ hs1 hT with h2 | ⟨b1, b2, hb⟩
    · obtain ⟨u2, hu2, hs2⟩ := skip_segment u1 v _ _ hs1 h2
      have h3 := no_backtick_segment u2 v _ _ hs2 hnb
      left
      rw [hlen, hu1, hu2]
      simp only [List.length_append, List.length_replicate] at h3 ⊢
      omega
    · right
      exact ⟨op ++ b1, b2 ++ cl, by rw [hout, hb]; simp only [List.append_assoc]⟩

theorem escapeHtml_fence : escapeHtml fence = fence := by decide

theorem linkMatch_transparent : FenceTransparent linkMatch := by
  constructor
  · intro bol t
    unfold linkMatch
    have : backtick ≠ '[' := by decide
    split
    · rename_i r heq
      exact absurd (List.cons.inj heq).1 this
    · rfl
  · intro bol u v out len h
    obtain ⟨text, url, rest, hs, _, _, _, _, hout, hlen⟩ := linkMatch_some bol _ out len h
    refine ⟨by omega, ?_⟩
    have hs0 : u ++ (fence ++ v) = ['['] ++ (text ++ ']' :: '(' :: (url ++ ')' :: rest)) := hs
    have h1 := no_backtick_segment u v _ _ hs0 (by decide)
    obtain ⟨u1, hu1, hs1⟩ := skip_segment u v _ _ hs0 h1
    rcases cover u1 v text _ hs1 (by intro t ht; exact absurd (List.cons.inj ht).1 (by decide))
      with h2 | ⟨b1, b2, hb⟩
    · obtain ⟨u2, hu2, hs2⟩ := skip_segment u1 v _ _ hs1 h2
      have hs2' : u2 ++ (fence ++ v) = [']', '('] ++ (url ++ ')' :: rest) := hs2
      have h3 := no_backtick_segment u2 v _ _ hs2' (by decide)
      obtain ⟨u3, hu3, hs3⟩ := skip_segment u2 v _ _ hs2' h3
      rcases cover u3 v url _ hs3
        (by intro t ht; exact absurd (List.cons.inj ht).1 (by decide)) with h4 | ⟨b1, b2, hb⟩
      · obtain ⟨u4, hu4, hs4⟩ := skip_segment u3 v _ _ hs3 h4
        have hs4' : u4 ++ (fence ++ v) = [')'] ++ rest := hs4
        have h5 := no_backtick_segment u4 v _ _ hs4' (by decide)
        left
        rw [hlen, hu1, hu2, hu3, hu4]
        simp only [List.length_append, List.length_cons, List.length_nil] at h5 ⊢
        omega
      · right
        refine ⟨"<a href=\"".toList ++ escapeHtml b1,
          escapeHtml b2 ++ "\" target=\"_blank\" rel=\"noopener noreferrer\">".toList ++ text ++
            "</a>".toList, ?_⟩
        rw [hout, hb]
        unfold anchor
        rw [escapeHtml_append, escapeHtml_append, escapeHtml_fence]
        simp only [List.append_assoc]
    · right
      refine ⟨"<a href=\"".toList ++ escapeHtml url ++
          "\" target=\"_blank\" rel=\"noopener noreferrer\">".toList ++ b1,
        b2 ++ "</a>".toList, ?_⟩
      rw [hout, hb]
      unfold anchor
      simp only [List.append_assoc]

theorem backtick_not_space : isSpace backtick = false := by decide

theorem headingMatch_transparent (n : Nat) (hn : 1 ≤ n) :
    FenceTransparent (headingMatch n) := by
  obtain ⟨k, rfl⟩ : ∃ k, n = k + 1 := ⟨n - 1, by omega⟩
  constructor
  · intro bol t
    unfold headingMatch
    rw [List.replicate_succ, startsWith_cons_ne '#' backtick _ _ (by decide)]
    simp
  · intro bol u v out len h
    obtain ⟨ws, cap, rest, _, hs, hws, _, hrest, hout, hlen⟩ :=
      headingMatch_some (k + 1) bol _ out len h
    refine ⟨by omega, ?_⟩
    have hs0 : u ++ (fence ++ v) = (List.replicate (k + 1) '#' ++ ws) ++ (cap ++ rest) := by
      rw [hs, List.append_assoc]
    have hnb : backtick ∉ List.replicate (k + 1) '#' ++ ws := by
      intro hc
      rcases List.mem_append.1 hc with hc | hc
      · exact not_mem_replicate '#' _ (by decide) hc
      · have := hws _ hc
        rw [backtick_not_space] at this
        exact Bool.noConfusion this
    have h1 := no_backtick_segment u v _ _ hs0 hnb
    obtain ⟨u1, hu1, hs1⟩ := skip_segment u v _ _ hs0 h1
    have hT : ∀ t, rest ≠ backtick :: t := by
      intro t ht
      rcases hrest with hr | ⟨d, rest', hr, hd⟩
      · rw [hr] at ht
        exact List.noConfusion ht
      · rw [hr] at ht
        rw [(List.cons.inj ht).1] at hd
        revert hd
        decide
    rcases cover u1 v cap _ hs1 hT with h2 | ⟨b1, b2, hb⟩
    · left
      rw [hlen, hu1]
      simp only [List.length_append, List.length_replicate] at h2 ⊢
      omega
    · right
      refine ⟨"<h".toList ++ natToString (k + 1) ++ ">".toList ++ b1,
        b2 ++ "</h".toList ++ natToString (k + 1) ++ ">".toList, ?_⟩
      rw [hout, hb]
      simp only [List.append_assoc]

theorem backtick_not_digit : isDigit backtick = false := by decide

theorem restoreMatch_transparent (codeBlocks : List (List Char)) :
    FenceTransparent (restoreMatch codeBlocks) := by
  constructor
  · intro bol t
    unfold restoreMatch
    have : startsWith "@@CODEBLOCK".toList (backtick :: t) = false :=
      startsWith_cons_ne '@' backtick _ _ (by decide)
    rw [this]
    rfl
  · intro bol u v out len h
    obtain ⟨idx, rest, hs, _, hidx, _, hlen⟩ := restoreMatch_some codeBlocks bol _ out len h
    refine ⟨by omega, ?_⟩
    have hs0 : u ++ (fence ++ v) = ("@@CODEBLOCK".toList ++ idx ++ "@@".toList) ++ rest := by
      rw [hs]
      simp only [List.append_assoc]
    have hnb : backtick ∉ "@@CODEBLOCK".toList ++ idx ++ "@@".toList := by
      intro hc
      rcases List.mem_append.1 hc with hc | hc
      · rcases List.mem_append.1 hc with hc | hc
        · revert hc; decide
        · have := hidx _ hc
          rw [backtick_not_digit] at this
          exact Bool.noConfusion this
      · revert hc; decide
    have h1 := no_backtick_segment u v _ _ hs0 hnb
    left
    rw [hlen]
    simp only [List.length_append] at h1
    have e1 : ("@@CODEBLOCK".toList).length = 11 := rfl
    have e2 : ("@@".toList).length = 2 := rfl
    omega

end ChromeAIChat

open ChromeAIChat JSRegExp

namespace ChromeAIChat

theorem infix_skip (E S : List Char) (hE : backtick ∉ E) (h : fence <:+: E ++ S) :
    fence <:+: S := by
  obtain ⟨a, b, hab⟩ := h
  have h0 : a ++ (fence ++ b) = E ++ S := by rw [← hab, List.append_assoc]
  have h1 := no_backtick_segment a b E S h0 hE
  obtain ⟨a2, _, h2⟩ := skip_segment a b E S h0 h1
  exact ⟨a2, b, by rw [← h2, List.append_assoc]⟩

theorem infix_split_newline (X Y : List Char) (h : fence <:+: X ++ newline :: Y) :
    fence <:+: X ∨ fence <:+: Y := by
  obtain ⟨a, b, hab⟩ := h
  have h0 : a ++ (fence ++ b) = X ++ newline :: Y := by rw [← hab, List.append_assoc]
  rcases cover a b X (newline :: Y) h0
    (by intro t ht; exact absurd (List.cons.inj ht).1 (by decide)) with h1 | ⟨b1, b2, hb⟩
  · obtain ⟨a2, _, h2⟩ := skip_segment a b X _ h0 h1
    right
    have h3 : a2 ++ (fence ++ b) = [newline] ++ Y := h2
    exact infix_skip [newline] Y (by decide) ⟨a2, b, by rw [← h3, List.append_assoc]⟩
  · left
    exact ⟨b1, b2, by rw [hb, List.append_assoc]⟩

theorem infix_line (ls : List (List Char)) (h : fence <:+: joinLines ls) :
    ∃ l ∈ ls, fence <:+: l := by
  induction ls with
  | nil =>
    obtain ⟨a, b, hab⟩ := h
    have : (a ++ fence ++ b).length = 0 := by rw [hab]; rfl
    simp [fence] at this
  | cons l rest ih =>
    cases rest with
    | nil => exact ⟨l, List.mem_cons_self _ _, h⟩
    | cons l2 ls2 =>
      rw [joinLines_cons_cons] at h
      rcases infix_split_newline _ _ h with h1 | h1
      · exact ⟨l, List.mem_cons_self _ _, h1⟩
      · obtain ⟨x, hx, hx2⟩ := ih h1
        exact ⟨x, List.mem_cons_of_mem _ hx, hx2⟩

theorem line_infix_join (ls : List (List Char)) (l : List Char) (hl : l ∈ ls) :
    l <:+: joinLines ls := by
  induction ls with
  | nil => simp at hl
  | cons l0 rest ih =>
    cases rest with
    | nil =>
      simp only [List.mem_singleton] at hl
      rw [hl]
      exact List.infix_refl _
    | cons l2 ls2 =>
      rw [joinLines_cons_cons]
      rcases List.mem_cons.1 hl with hl | hl
      · rw [hl]
        exact List.infix_append' [] l0 _
      · obtain ⟨a, b, hab⟩ := ih hl
        exact ⟨l0 ++ newline :: a, b, by rw [← hab]; simp⟩

theorem infix_dropWhile_space (s : List Char) (h : fence <:+: s) :
    fence <:+: s.dropWhile isSpace := by
  have e := List.takeWhile_append_dropWhile isSpace s
  rw [← e] at h
  apply infix_skip _ _ _ h
  intro hc
  have := mem_takeWhile _ _ _ hc
  rw [backtick_not_space] at this
  exact Bool.noConfusion this

theorem stripBullet_fence (line item : List Char) (h : stripBullet line = some item)
    (hs : fence <:+: line) : fence <:+: item := by
  unfold stripBullet at h
  have h0 := infix_dropWhile_space line hs
  split at h
  · rename_i c r hd
    rw [hd] at h0
    split at h
    · rename_i hc
      have hcb : backtick ∉ [c] := by
        rcases hc with hc | hc <;> (rw [hc]; decide)
      have h1 : fence <:+: r := infix_skip [c] r hcb h0
      split at h
      · split at h
        · simp only [Option.some.injEq] at h
          rw [← h]
          exact infix_dropWhile_space _ h1
        · exact Option.noConfusion h
      · exact Option.noConfusion h
    · exact Option.noConfusion h
  · exact Option.noConfusion h

theorem listLoop_fence (lines : List (List Char)) (l : List Char) (hl : l ∈ lines)
    (hf : fence <:+: l) (inList : Bool) : ∃ l' ∈ listLoop inList lines, fence <:+: l' := by
  induction lines generalizing inList with
  | nil => simp at hl
  | cons line rest ih =>
    unfold listLoop
    rcases List.mem_cons.1 hl with hl | hl
    · subst hl
      split
      · rename_i item hitem
        refine ⟨"<li>".toList ++ item ++ "</li>".toList, ?_, ?_⟩
        · simp
        · exact (stripBullet_fence l item hitem hf).trans
            ⟨"<li>".toList, "</li>".toList, rfl⟩
      · exact ⟨l, by simp, hf⟩
    · split
      · obtain ⟨l', h1, h2⟩ := ih hl true
        exact ⟨l', by simp [h1], h2⟩
      · obtain ⟨l', h1, h2⟩ := ih hl false
        exact ⟨l', by simp [h1], h2⟩

theorem lists_fence (s : List Char) (h : fence <:+: s) : fence <:+: lists s := by
  unfold lists
  rw [← joinLines_splitLines s] at h
  obtain ⟨l, hl, hf⟩ := infix_line _ h
  obtain ⟨l', hl', hf'⟩ := listLoop_fence _ l hl hf false
  exact hf'.trans (line_infix_join _ l' hl')

theorem lineBreaks_fence (s : List Char) (h : fence <:+: s) :
    fence <:+: replaceChar newline "<br>".toList s := by
  obtain ⟨a, b, hab⟩ := h
  rw [← hab, replaceChar_append, replaceChar_append,
    replaceChar_of_not_mem newline _ fence (by decide)]
  exact ⟨_, _, rfl⟩

theorem headings_fence (s : List Char) (h : fence <:+: s) : fence <:+: headings s := by
  unfold headings
  simp only
  exact replaceAll_fence _ (headingMatch_transparent 1 (by omega)) _
    (replaceAll_fence _ (headingMatch_transparent 2 (by omega)) _
    (replaceAll_fence _ (headingMatch_transparent 3 (by omega)) _
    (replaceAll_fence _ (headingMatch_transparent 4 (by omega)) _
    (replaceAll_fence _ (headingMatch_transparent 5 (by omega)) _
    (replaceAll_fence _ (headingMatch_transparent 6 (by omega)) _ h)))))

theorem emphasis_fence (s : List Char) (h : fence <:+: s) : fence <:+: emphasis s := by
  unfold emphasis
  simp only
  exact replaceAll_fence _ (delimMatch_transparent '_' 1 _ _ (by decide) (by omega)) _
    (replaceAll_fence _ (delimMatch_transparent '*' 1 _ _ (by decide) (by omega)) _
    (replaceAll_fence _ (delimMatch_transparent '_' 2 _ _ (by decide) (by omega)) _
    (replaceAll_fence _ (delimMatch_transparent '*' 2 _ _ (by decide) (by omega)) _ h)))

/-- From the link pass on, a literal fence in the text stays in the text. -/
theorem late_passes_fence (codeBlocks : List (List Char)) (s : List Char)
    (h : fence <:+: s) :
    fence <:+: replaceAll (restoreMatch codeBlocks) true 0
      (replaceChar newline "<br>".toList (lists (emphasis (headings
        (replaceAll linkMatch true 0 s))))) :=
  replaceAll_fence _ (restoreMatch_transparent codeBlocks) _
    (lineBreaks_fence _ (lists_fence _ (emphasis_fence _ (headings_fence _
      (replaceAll_fence _ linkMatch_transparent _ h)))))

end ChromeAIChat

open ChromeAIChat JSRegExp

namespace ChromeAIChat

theorem escapeChar_backtick : escapeChar backtick = [backtick] := by decide

theorem escapeChar_no_backtick (c : Char) (h : c ≠ backtick) : backtick ∉ escapeChar c := by
  unfold escapeChar
  split
  · decide
  split
  · decide
  split
  · decide
  split
  · decide
  split
  · decide
  intro hc
  exact h (List.mem_singleton.1 hc).symm

theorem escapeChar_ne_nil (c : Char) : escapeChar c ≠ [] := by
  unfold escapeChar
  split
  · decide
  split
  · decide
  split
  · decide
  split
  · decide
  split
  · decide
  simp

theorem escapeHtml_no_backtick (s : List Char) (h : backtick ∉ s) :
    backtick ∉ escapeHtml s := by
  induction s with
  | nil => simp [escapeHtml_nil]
  | cons c s ih =>
    rw [escapeHtml_cons]
    intro hc
    rcases List.mem_append.1 hc with hc | hc
    · exact escapeChar_no_backtick c (fun e => h (e ▸ List.mem_cons_self _ _)) hc
    · exact ih (fun e => h (List.mem_cons_of_mem _ e)) hc

theorem escape_run (k : Nat) (b t : List Char)
    (h : List.replicate k backtick <+: escapeHtml b ++ t) :
    List.replicate k backtick <+: b ++ t := by
  induction b generalizing k with
  | nil => simpa [escapeHtml_nil] using h
  | cons c b ih =>
    cases k with
    | zero => exact List.nil_prefix
    | succ k =>
      rw [escapeHtml_cons] at h
      by_cases hc : c = backtick
      · subst hc
        rw [escapeChar_backtick] at h
        simp only [List.singleton_append, List.cons_append, List.nil_append,
          List.replicate_succ, List.cons_prefix_cons, true_and] at h ⊢
        exact ih k h
      · exfalso
        have hne := escapeChar_ne_nil c
        have hnb := escapeChar_no_backtick c hc
        cases he : escapeChar c with
        | nil => exact hne he
        | cons e es =>
          simp only [he, List.replicate_succ, List.cons_append, List.cons_prefix_cons] at h
          rw [he] at hnb
          exact hnb (h.1 ▸ List.mem_cons_self _ _)

theorem escape_fence (b t : List Char) (h : fence <:+: escapeHtml b ++ t) :
    fence <:+: b ++ t := by
  induction b with
  | nil => simpa [escapeHtml_nil] using h
  | cons c b ih =>
    rw [escapeHtml_cons, List.append_assoc] at h
    by_cases hc : c = backtick
    · subst hc
      rw [escapeChar_backtick, List.singleton_append, List.infix_cons_iff] at h
      rw [List.cons_append, List.infix_cons_iff]
      rcases h with h | h
      · left
        have h1 : List.replicate 3 backtick <+: backtick :: (escapeHtml b ++ t) := h
        rw [List.replicate_succ, List.cons_prefix_cons] at h1
        have h2 := escape_run 2 b t h1.2
        show List.replicate 3 backtick <+: backtick :: (b ++ t)
        rw [List.replicate_succ, List.cons_prefix_cons]
        exact ⟨rfl, h2⟩
      · exact Or.inr (ih h)
    · have h1 := infix_skip _ _ (escapeChar_no_backtick c hc) h
      rw [List.cons_append, List.infix_cons_iff]
      exact Or.inr (ih h1)

theorem closed_chars_append (E s : List Char) (hE : backtick ∉ E) (hs : ClosedBlocks s) :
    ClosedBlocks (E ++ s) := by
  induction E with
  | nil => exact hs
  | cons e E ih =>
    exact ClosedBlocks.char e _ (fun h => hE (h ▸ List.mem_cons_self _ _))
      (ih (fun h => hE (List.mem_cons_of_mem _ h)))

theorem closed_escape (h : List Char) (hc : ClosedBlocks h) : ClosedBlocks (escapeHtml h) := by
  induction hc with
  | nil => exact ClosedBlocks.nil
  | char c s hne _ ih =>
    rw [escapeHtml_cons]
    exact closed_chars_append _ _ (escapeChar_no_backtick c hne) ih
  | block body s hb _ ih =>
    rw [escapeHtml_append, escapeHtml_append, escapeHtml_append, escapeHtml_fence]
    exact ClosedBlocks.block _ _ (fun hf => hb (escape_fence _ _ hf)) ih

theorem untilFence_exact (body rest : List Char)
    (hb : ¬ fence <:+: body ++ [backtick, backtick]) :
    untilFence (body ++ (fence ++ rest)) = some (body, body.length + 3) := by
  induction body with
  | nil =>
    show untilFence (backtick :: backtick :: backtick :: rest) = _
    unfold untilFence
    have : startsWith fence (backtick :: backtick :: backtick :: rest) = true := by
      simp [startsWith, fence]
    rw [if_pos this]
    rfl
  | cons c b ih =>
    have hb' : ¬ fence <:+: b ++ [backtick, backtick] := by
      intro hf
      apply hb
      rw [List.cons_append, List.infix_cons_iff]
      exact Or.inr hf
    have hsw : startsWith fence (c :: b ++ (fence ++ rest)) = false := by
      rw [Bool.eq_false_iff]
      intro hsw
      apply hb
      obtain ⟨r, hr⟩ := (startsWith_iff _ _).1 hsw
      cases b with
      | nil =>
        have h1 : c :: backtick :: backtick :: backtick :: rest =
            backtick :: backtick :: backtick :: r := hr
        rw [(List.cons.inj h1).1]
        exact List.infix_refl _
      | cons d b2 =>
        cases b2 with
        | nil =>
          have h1 : c :: d :: backtick :: backtick :: backtick :: rest =
              backtick :: backtick :: backtick :: r := hr
          simp only [List.cons.injEq] at h1
          rw [h1.1, h1.2.1]
          exact ⟨[], [backtick], rfl⟩
        | cons e b3 =>
          have h1 : c :: d :: e :: (b3 ++ (fence ++ rest)) =
              backtick :: backtick :: backtick :: r := hr
          simp only [List.cons.injEq] at h1
          rw [h1.1, h1.2.1, h1.2.2.1]
          exact ⟨[], b3 ++ [backtick, backtick], rfl⟩
    rw [List.cons_append]
    unfold untilFence
    rw [List.cons_append] at hsw
    rw [hsw, ih hb']
    rfl

theorem untilFence_none (b : List Char) (h : backtick ∉ b) : untilFence b = none := by
  induction b with
  | nil => rfl
  | cons c b ih =>
    unfold untilFence
    have hc : backtick ≠ c := fun e => h (e ▸ List.mem_cons_self _ _)
    have : startsWith fence (c :: b) = false := startsWith_cons_ne backtick c _ _ hc
    rw [this, ih (fun e => h (List.mem_cons_of_mem _ e))]
    rfl

theorem extractText_copy (count : Nat) (c : Char) (cs : List Char) (h : c ≠ backtick) :
    extractText count 0 (c :: cs) = c :: extractText count 0 cs := by
  have : startsWith fence (c :: cs) = false :=
    startsWith_cons_ne backtick c _ _ (fun e => h e.symm)
  simp only [extractText, this, Bool.false_eq_true, if_false]

theorem extractText_plain (count : Nat) (b : List Char) (h : backtick ∉ b) :
    extractText count 0 b = b := by
  induction b with
  | nil => rfl
  | cons c b ih =>
    rw [extractText_copy count c b (fun e => h (e ▸ List.mem_cons_self _ _)),
      ih (fun e => h (List.mem_cons_of_mem _ e))]

theorem startsWith_short (b : List Char) (h : backtick ∉ b) :
    startsWith fence (backtick :: backtick :: b) = false ∧
    startsWith fence (backtick :: b) = false := by
  cases b with
  | nil => exact ⟨rfl, rfl⟩
  | cons d b =>
    have hd : backtick ≠ d := fun e => h (e ▸ List.mem_cons_self _ _)
    constructor
    · simp [startsWith, fence, hd]
    · simp [startsWith, fence, hd]

theorem extractText_open_fence (count : Nat) (b : List Char) (h : backtick ∉ b) :
    extractText count 0 (fence ++ b) = fence ++ b := by
  have h1 : startsWith fence (backtick :: backtick :: backtick :: b) = true := by
    simp [startsWith, fence]
  obtain ⟨h2, h3⟩ := startsWith_short b h
  show extractText count 0 (backtick :: backtick :: backtick :: b) =
    backtick :: backtick :: backtick :: b
  have e1 : extractText count 0 (backtick :: backtick :: backtick :: b) =
      backtick :: extractText count 0 (backtick :: backtick :: b) := by
    simp only [extractText, h1, if_true, List.drop_succ_cons, List.drop_zero,
      untilFence_none b h]
  have e2 : extractText count 0 (backtick :: backtick :: b) =
      backtick :: extractText count 0 (backtick :: b) := by
    simp only [extractText, h2, Bool.false_eq_true, if_false]
  have e3 : extractText count 0 (backtick :: b) = backtick :: extractText count 0 b := by
    simp only [extractText, h3, Bool.false_eq_true, if_false]
  rw [e1, e2, e3, extractText_plain count b h]

theorem placeholder_no_backtick (n : Nat) : backtick ∉ placeholder n := by
  intro h
  unfold placeholder natToString at h
  simp only [List.mem_append] at h
  rcases h with (h | h) | h
  · revert h; decide
  · have hd : ∀ fuel m acc, (∀ c ∈ acc, c ≠ backtick) →
        ∀ c ∈ Nat.toDigitsCore 10 fuel m acc, c ≠ backtick := by
      intro fuel
      induction fuel with
      | zero => intro m acc hacc; simpa [Nat.toDigitsCore] using hacc
      | succ fuel ih =>
        intro m acc hacc
        have hdc : ∀ d, Nat.digitChar d ≠ backtick := by
          intro d
          by_cases h16 : d < 16
          · interval_cases d <;> decide
          · have : Nat.digitChar d = '*' := by
              unfold Nat.digitChar
              iterate 16 rw [if_neg (by omega)]
            rw [this]
            decide
        unfold Nat.toDigitsCore
        simp only
        split
        · intro c hc
          rcases List.mem_cons.1 hc with h' | h'
          · rw [h']; exact hdc _
          · exact hacc c h'
        · apply ih
          intro c hc
          rcases List.mem_cons.1 hc with h' | h'
          · rw [h']; exact hdc _
          · exact hacc c h'
    exact hd _ _ [] (by simp) backtick h rfl
  · revert h; decide

theorem extractText_closed (h b : List Char) (hc : ClosedBlocks h) (hb : backtick ∉ b) :
    ∀ count, ∃ X, backtick ∉ X ∧
      extractText count 0 (h ++ (fence ++ b)) = X ++ (fence ++ b) := by
  induction hc with
  | nil =>
    intro count
    exact ⟨[], by simp, by rw [List.nil_append, extractText_open_fence count b hb]⟩
  | char c s hne _ ih =>
    intro count
    obtain ⟨X, hX, hXe⟩ := ih count
    refine ⟨c :: X, ?_, ?_⟩
    · intro hm
      rcases List.mem_cons.1 hm with hm | hm
      · exact hne hm.symm
      · exact hX hm
    · rw [List.cons_append, extractText_copy count c _ hne, hXe]
      rfl
  | block body s hbody _ ih =>
    intro count
    obtain ⟨X, hX, hXe⟩ := ih (count + 1)
    refine ⟨placeholder count ++ X, ?_, ?_⟩
    · intro hm
      rcases List.mem_append.1 hm with hm | hm
      · exact placeholder_no_backtick count hm
      · exact hX hm
    · have hshape : fence ++ (body ++ (fence ++ s)) ++ (fence ++ b) =
          backtick :: backtick :: backtick :: (body ++ (fence ++ (s ++ (fence ++ b)))) := by
        simp [fence]
      have h1 : startsWith fence (backtick :: backtick :: backtick ::
          (body ++ (fence ++ (s ++ (fence ++ b))))) = true := by
        simp [startsWith, fence]
      have hu := untilFence_exact body (s ++ (fence ++ b)) hbody
      have hdrop : List.drop (body.length + 3)
          (body ++ (fence ++ (s ++ (fence ++ b)))) = s ++ (fence ++ b) := by
        have e : body ++ (fence ++ (s ++ (fence ++ b))) =
            (body ++ fence) ++ (s ++ (fence ++ b)) := by
          simp
        rw [e]
        apply List.drop_left'
        simp only [List.length_append, List.length_cons, List.length_nil, fence]
      rw [hshape]
      simp only [extractText, h1, if_true, List.drop_succ_cons, List.drop_zero, hu]
      rw [extractText_skip]
      rw [hdrop, hXe, List.append_assoc]

end ChromeAIChat

open ChromeAIChat JSRegExp

namespace ChromeAIChat

theorem inlineCode_none_of_ne (bol : Bool) (c : Char) (cs : List Char) (h : c ≠ backtick) :
    inlineCodeMatch bol (c :: cs) = none := by
  unfold inlineCodeMatch delimMatch
  have : startsWith (List.replicate 1 backtick) (c :: cs) = false :=
    startsWith_cons_ne backtick c _ _ (fun e => h e.symm)
  rw [this]
  rfl

theorem inlineCode_plain (bol : Bool) (b : List Char) (h : backtick ∉ b) :
    replaceAll inlineCodeMatch bol 0 b = b := by
  induction b generalizing bol with
  | nil => rfl
  | cons c b ih =>
    rw [replaceAll_none _ _ _ _
      (inlineCode_none_of_ne bol c b (fun e => h (e ▸ List.mem_cons_self _ _))),
      ih _ (fun e => h (List.mem_cons_of_mem _ e))]

theorem inlineCode_none_empty_body (bol : Bool) (t : List Char) :
    inlineCodeMatch bol (backtick :: backtick :: t) = none := by
  unfold inlineCodeMatch delimMatch
  simp [startsWith, List.takeWhile]

theorem inlineCode_none_unclosed (bol : Bool) (b : List Char) (h : backtick ∉ b) :
    inlineCodeMatch bol (backtick :: b) = none := by
  unfold inlineCodeMatch delimMatch
  have h1 : startsWith (List.replicate 1 backtick) (backtick :: b) = true := by
    simp [startsWith]
  have h2 : List.takeWhile (fun c => decide (c ≠ backtick)) b = b := by
    rw [List.takeWhile_eq_self_iff]
    intro c hc
    simpa using fun e : c = backtick => h (e ▸ hc)
  simp only [h1, if_true, List.drop_succ_cons, List.drop_zero, h2, List.drop_length]
  simp [startsWith]

theorem inlineCode_open_fence (bol : Bool) (X b : List Char) (hX : backtick ∉ X)
    (hb : backtick ∉ b) :
    replaceAll inlineCodeMatch bol 0 (X ++ (fence ++ b)) = X ++ (fence ++ b) := by
  induction X generalizing bol with
  | nil =>
    show replaceAll inlineCodeMatch bol 0 (backtick :: backtick :: backtick :: b) =
      backtick :: backtick :: backtick :: b
    rw [replaceAll_none _ _ _ _ (inlineCode_none_empty_body _ _),
      replaceAll_none _ _ _ _ (inlineCode_none_empty_body _ _),
      replaceAll_none _ _ _ _ (inlineCode_none_unclosed _ b hb),
      inlineCode_plain _ b hb]
  | cons c X ih =>
    rw [List.cons_append, replaceAll_none _ _ _ _
      (inlineCode_none_of_ne bol c _ (fun e => hX (e ▸ List.mem_cons_self _ _))),
      ih _ (fun e => hX (List.mem_cons_of_mem _ e))]

end ChromeAIChat

/-- C19, as stated, fails: in the text of one fence followed by `abc` and a
single backtick, the last backtick of the unmatched fence is consumed as the
opening of a code span. -/
theorem C19_counterexample :
    renderMarkdown "```abc`".toList = "``<code>abc</code>".toList := by
  decide

/-- C19, amended.  For every text made of a part in which every fence is
matched (characters other than the backtick and complete fenced blocks),
then one more fence, then text without any backtick, `renderMarkdown`
returns a result in which that last fence stands as three literal backticks
in a row. -/
theorem C19_unmatched_fence_stays_literal (head post : JSString)
    (hhead : ClosedBlocks head) (hpost : backtick ∉ post) :
    fence <:+: renderMarkdown (head ++ (fence ++ post)) := by
  unfold renderMarkdown
  have hne : (head ++ (fence ++ post)).isEmpty = false := by
    cases head <;> rfl
  rw [hne]
  simp only [Bool.false_eq_true, if_false]
  have hesc : escapeHtml (head ++ (fence ++ post)) =
      escapeHtml head ++ (fence ++ escapeHtml post) := by
    rw [escapeHtml_append, escapeHtml_append, escapeHtml_fence]
  have hpost' := escapeHtml_no_backtick post hpost
  obtain ⟨X, hX, hXe⟩ := extractText_closed _ _ (closed_escape head hhead) hpost' 0
  rw [hesc, hXe, inlineCode_open_fence true X _ hX hpost']
  exact late_passes_fence _ _ ⟨X, escapeHtml post, by rw [List.append_assoc]⟩

/-- Witness for the amended C19: a complete block, a space, an unmatched
fence and the text `c`. -/
theorem C19_unmatched_fence_stays_literal_witness :
    fence <:+: renderMarkdown ("```a``` ".toList ++ (fence ++ "c".toList)) :=
  C19_unmatched_fence_stays_literal "```a``` ".toList "c".toList
    (ClosedBlocks.block "a".toList " ".toList (by decide)
      (ClosedBlocks.char ' ' [] (by decide) ClosedBlocks.nil))
    (by decide)

open ChatStorage ChromeAIChat Examples

/-- Witness for C16: the user says `hi`, the assistant answers `hello`, and
the one call recorded carries both messages. -/
theorem C16_persisted_messages_witness :
    helloCall.messages ≠ [] ∧ (∀ m ∈ helloCall.messages, m.role ≠ Role.system) ∧
      ∃ done, done <+: helloOps ∧
        helloCall.messages.map (fun m => (m.role, m.content)) <:+ addedMessages done :=
  C16_persisted_messages calmWorld Blob.absent helloOps helloCall (by decide)

open ChromeAIChat JSRegExp

namespace ChromeAIChat

theorem escapeHtml_eq_flatMap (s : List Char) : escapeHtml s = s.flatMap escapeChar := by
  induction s with
  | nil => rfl
  | cons c s ih => rw [escapeHtml_cons, List.flatMap_cons, ih]

theorem escapeChar_clean (x c : Char) (h : c ∈ escapeChar x) :
    c ≠ '<' ∧ c ≠ '>' ∧ c ≠ dquote ∧ c ≠ apostrophe := by
  unfold escapeChar at h
  split at h
  · revert c; decide
  split at h
  · revert c; decide
  split at h
  · revert c; decide
  split at h
  · revert c; decide
  split at h
  · revert c; decide
  rename_i _ h2 h3 h4 h5
  rw [List.mem_singleton] at h
  subst h
  exact ⟨h2, h3, h4, h5⟩

end ChromeAIChat

/-- C21 (escape exactly once).  For every string, `escapeHtml`, which is
five global replacements run one after the other, returns the concatenation
of the images of the characters under the map sending `&` to `&amp;`, `<`
to `&lt;`, `>` to `&gt;`, the double quote to `&quot;`, the apostrophe to
`&#39;` and every other character to itself; so an ampersand introduced by
one replacement is never escaped again, as for `<`, which becomes `&lt;`;
and the result contains no `<`, `>`, double quote or apostrophe. -/
theorem C21_escape_exactly_once (s : JSString) :
    escapeHtml s = s.flatMap escapeChar ∧
    (∀ c ∈ escapeHtml s, c ≠ '<' ∧ c ≠ '>' ∧ c ≠ dquote ∧ c ≠ apostrophe) ∧
    escapeHtml "<&>".toList = "&lt;&amp;&gt;".toList := by
  refine ⟨escapeHtml_eq_flatMap s, ?_, by decide⟩
  intro c hc
  rw [escapeHtml_eq_flatMap, List.mem_flatMap] at hc
  obtain ⟨x, _, hx⟩ := hc
  exact escapeChar_clean x c hx
